import Mathlib

/-!
Shallow Lean embedding of the core light-transport code of the rs_pbrt_edge
renderer, together with theorems checking the natural-language specification
against the embedded code.

Conventions used throughout:
* Rust `Float` values are embedded as exact arithmetic: `ℚ` where the
  relevant code is pure arithmetic, `ℝ` where square roots or trigonometric
  functions occur.
* Rust `Vec<T>` becomes `List T`; `mut` accumulation loops become folds or
  explicit recursion; out-parameters become extra components of the result.
* Code of the repository that is not under `src/` (core/pbrt.rs,
  core/geometry.rs, core/rng.rs, core/interpolation.rs) is modelled from the
  spec where needed; such definitions carry a doc comment starting with
  "Modelled from the spec:".
-/

namespace Sampling

/-- Modelled from the spec: `clamp_t` of core/pbrt.rs (a file not under
src/), at type `isize`: clamp `val` to the interval `[low, high]`. -/
def clampZ (val low high : ℤ) : ℤ :=
  if val < low then low else if val > high then high else val

/-- Modelled from the spec: `clamp_t` of core/pbrt.rs at type `usize`. -/
def clampN (val low high : ℕ) : ℕ :=
  if val < low then low else if val > high then high else val

/-- Embeds `struct Distribution1D` of core/sampling.rs: function samples,
CDF and the function integral. -/
structure Distribution1D where
  func : List ℚ
  cdf : List ℚ
  func_int : ℚ
  deriving Repr

/-- Embeds `Distribution1D::new` (core/sampling.rs lines 24-49).  The loop
pushing `cdf[i-1] + f[i-1]/n` is the left scan of that step starting from
`0`; the normalisation loop `iter_mut().skip(1).take(n)` divides entries
`1..=n` by `func_int`, and since entry 0 is `0` (unchanged by the division)
it equals mapping the division over the whole CDF vector. -/
def Distribution1D.new (f : List ℚ) : Distribution1D :=
  let n : ℕ := f.length
  let cdf0 : List ℚ := List.scanl (fun c x => c + x / (n : ℚ)) 0 f
  let funcInt : ℚ := cdf0.getD n 0
  let cdf : List ℚ :=
    if funcInt = 0 then (List.range (n + 1)).map (fun i : ℕ => (i : ℚ) / (n : ℚ))
    else cdf0.map (fun c => c / funcInt)
  ⟨f, cdf, funcInt⟩

/-- Embeds `Distribution1D::count`. -/
def Distribution1D.count (d : Distribution1D) : ℕ := d.func.length

/-- Embeds the binary-search loop shared by `sample_continuous` and
`sample_discrete` (the inlined `find_interval` of core/pbrt.rs): bisect on
the predicate `cdf[middle] <= u`, where `middle = first + len / 2`. -/
def findIntervalLoop (cdf : List ℚ) (u : ℚ) (first len : ℕ) : ℕ :=
  if h : len = 0 then first
  else if cdf.getD (first + len / 2) 0 ≤ u then
    findIntervalLoop cdf u (first + len / 2 + 1) (len - (len / 2 + 1))
  else
    findIntervalLoop cdf u first (len / 2)
termination_by len
decreasing_by
  · omega
  · omega

/-- Result record for `Distribution1D::sample_continuous`: the returned
`x ∈ [0,1)` plus the two out-parameters `pdf` and `off`. -/
structure Sample1D where
  x : ℚ
  pdf : ℚ
  offset : ℕ
  deriving Repr

/-- Embeds `Distribution1D::sample_continuous` (core/sampling.rs lines
53-102): binary-search the CDF for the segment containing `u`, clamp the
offset, compute `du` along the segment, report the PDF `func[offset] /
func_int` (or `0`) and return `(offset + du) / n`. -/
def Distribution1D.sample_continuous (d : Distribution1D) (u : ℚ) : Sample1D :=
  let first := findIntervalLoop d.cdf u 0 d.cdf.length
  let offset : ℕ := (clampZ ((first : ℤ) - 1) 0 ((d.cdf.length : ℤ) - 2)).toNat
  let seg : ℚ := d.cdf.getD (offset + 1) 0 - d.cdf.getD offset 0
  let du0 : ℚ := u - d.cdf.getD offset 0
  let du : ℚ := if 0 < seg then du0 / seg else du0
  let pdf : ℚ := if 0 < d.func_int then d.func.getD offset 0 / d.func_int else 0
  ⟨((offset : ℚ) + du) / (d.count : ℚ), pdf, offset⟩

/-- Embeds `struct Distribution2D` of core/sampling.rs. -/
structure Distribution2D where
  p_conditional_v : List Distribution1D
  p_marginal : Distribution1D

/-- Embeds `Distribution2D::new` (core/sampling.rs lines 156-173): one
conditional `Distribution1D` per row slice `func[v*nu .. (v+1)*nu)`, and a
marginal `Distribution1D` over the rows' `func_int` values. -/
def Distribution2D.new (func : List ℚ) (nu nv : ℕ) : Distribution2D :=
  let conds : List Distribution1D :=
    (List.range nv).map (fun v => Distribution1D.new ((func.drop (v * nu)).take nu))
  let marginalFunc : List ℚ := conds.map (fun d => d.func_int)
  ⟨conds, Distribution1D.new marginalFunc⟩

/-- Cell index used by `Distribution2D::pdf`: the Rust expression
`clamp_t((p * count as Float) as usize, 0, count - 1)`; the `as usize`
cast truncates toward zero and saturates below at `0`, which is
`Int.toNat ∘ Int.floor` for finite arguments. -/
def cellIndex (p : ℚ) (count : ℕ) : ℕ :=
  clampN (Int.toNat ⌊p * (count : ℚ)⌋) 0 (count - 1)

/-- Embeds `Distribution2D::pdf` (core/sampling.rs lines 185-197). -/
def Distribution2D.pdf (d : Distribution2D) (pu pv : ℚ) : ℚ :=
  let iu := cellIndex pu (d.p_conditional_v.getD 0 ⟨[], [], 0⟩).count
  let iv := cellIndex pv d.p_marginal.count
  (d.p_conditional_v.getD iv ⟨[], [], 0⟩).func.getD iu 0 / d.p_marginal.func_int

/-- Density of a `Distribution1D` at a continuous point `u` — the value of
the constant cell containing `u` over the integral.  This is the quantity
the spec calls the distribution's PDF at `u`: it is what
`sample_continuous` reports as `pdf` (namely `func[offset] / func_int`) and
uses the same cell indexing as `Distribution2D::pdf`. -/
def Distribution1D.pdfAt (d : Distribution1D) (u : ℚ) : ℚ :=
  if 0 < d.func_int then d.func.getD (cellIndex u d.count) 0 / d.func_int else 0

end Sampling

namespace BVH

/-- Modelled from the spec: a three-component vector or point of
core/geometry.rs (a file not under src/), with rational components. -/
structure Vec3 where
  x : ℚ
  y : ℚ
  z : ℚ
  deriving Repr, DecidableEq

/-- Component access by axis index, mirroring the `match dim { 0 => X, 1 =>
Y, _ => Z }` dispatch of accelerators/bvh.rs. -/
def Vec3.comp (v : Vec3) : ℕ → ℚ
  | 0 => v.x
  | 1 => v.y
  | _ => v.z

/-- Modelled from the spec: the axis-aligned box `Bounds3f` of
core/geometry.rs with `min ≤ max` componentwise.  The spec's empty box
(`min = +∞`, `max = −∞`), which acts as the identity of the union, is
represented as `none` of an `Option Bounds3`. -/
structure Bounds3 where
  pMin : Vec3
  pMax : Vec3
  deriving Repr, DecidableEq

/-- Modelled from the spec: `bnd3_union_bnd3f` restricted to non-empty
boxes — componentwise min of the minima and max of the maxima. -/
def unionBB (a b : Bounds3) : Bounds3 :=
  ⟨⟨min a.pMin.x b.pMin.x, min a.pMin.y b.pMin.y, min a.pMin.z b.pMin.z⟩,
   ⟨max a.pMax.x b.pMax.x, max a.pMax.y b.pMax.y, max a.pMax.z b.pMax.z⟩⟩

/-- Modelled from the spec: `bnd3_union_bnd3f` with the empty box as
`none` (the empty box is the identity of the union). -/
def unionOB (a : Option Bounds3) (b : Option Bounds3) : Option Bounds3 :=
  match a, b with
  | none, b => b
  | a, none => a
  | some a, some b => some (unionBB a b)

/-- Modelled from the spec: `bnd3_union_pnt3f` — grow a (possibly empty)
box to contain a point. -/
def unionOP (a : Option Bounds3) (p : Vec3) : Option Bounds3 :=
  match a with
  | none => some ⟨p, p⟩
  | some a =>
      some ⟨⟨min a.pMin.x p.x, min a.pMin.y p.y, min a.pMin.z p.z⟩,
            ⟨max a.pMax.x p.x, max a.pMax.y p.y, max a.pMax.z p.z⟩⟩

/-- Modelled from the spec: `Bounds3f::surface_area` — twice the sum of
the pairwise products of the diagonal's components. -/
def surfaceArea (b : Bounds3) : ℚ :=
  let dx := b.pMax.x - b.pMin.x
  let dy := b.pMax.y - b.pMin.y
  let dz := b.pMax.z - b.pMin.z
  2 * (dx * dy + dx * dz + dy * dz)

/-- Surface area on the optional box; the SAH claims only ever evaluate it
on non-empty boxes (the source's value on the empty sentinel box is a
floating-point artifact). -/
def surfaceAreaO (b : Option Bounds3) : ℚ :=
  match b with
  | none => 0
  | some b => surfaceArea b

/-- Modelled from the spec: `Bounds3f::maximum_extent` — the axis of the
largest diagonal component, ties resolved as in pbrt (x before y before
z). -/
def maximumExtent (b : Bounds3) : ℕ :=
  let dx := b.pMax.x - b.pMin.x
  let dy := b.pMax.y - b.pMin.y
  let dz := b.pMax.z - b.pMin.z
  if dx > dy ∧ dx > dz then 0 else if dy > dz then 1 else 2

/-- Maximum extent of an optional box (never consulted on `none` in the
claims' scope, where at least one centroid exists). -/
def maximumExtentO (b : Option Bounds3) : ℕ :=
  match b with
  | none => 0
  | some b => maximumExtent b

/-- Modelled from the spec: component `dim` of `Bounds3f::offset` — the
relative position of `p` between the box's slabs on that axis, dividing
only when the slab has positive width. -/
def offsetComp (b : Bounds3) (p : Vec3) (dim : ℕ) : ℚ :=
  let o := p.comp dim - b.pMin.comp dim
  if b.pMax.comp dim > b.pMin.comp dim then o / (b.pMax.comp dim - b.pMin.comp dim)
  else o

/-- Embeds `struct BVHPrimitiveInfo` of accelerators/bvh.rs. -/
structure PrimInfo where
  primitive_number : ℕ
  bounds : Bounds3
  centroid : Vec3
  deriving Repr, DecidableEq

/-- Embeds `struct LinearBVHNode` of accelerators/bvh.rs (`offset` is an
`i32` in the source but always holds a non-negative index or primitive
offset; `pad` is omitted). -/
structure LinearBVHNode where
  bounds : Option Bounds3
  offset : ℕ
  n_primitives : ℕ
  axis : ℕ
  deriving Repr, DecidableEq

/-- Build tree produced by `recursive_build`, under the build-node
invariant stated by the spec: a node is a leaf iff `n_primitives > 0` and
both children are absent, otherwise an interior node with two children.
The source's `BVHBuildNode` (two `Option` child pointers) collapses to
this inductive exactly on values satisfying that invariant. -/
inductive BuildTree where
  | leaf (bounds : Option Bounds3) (first_prim_offset : ℕ) (n_primitives : ℕ)
  | interior (bounds : Option Bounds3) (split_axis : ℕ) (c1 c2 : BuildTree)
  deriving Repr, DecidableEq

/-- Number of nodes of a build tree. -/
def BuildTree.size : BuildTree → ℕ
  | .leaf _ _ _ => 1
  | .interior _ _ c1 c2 => 1 + c1.size + c2.size

/-- Build-node invariant on the data the inductive does not already force:
every leaf carries `n_primitives > 0`. -/
def BuildTree.wellFormed : BuildTree → Bool
  | .leaf _ _ n => 0 < n
  | .interior _ _ c1 c2 => c1.wellFormed && c2.wellFormed

/-- Embeds `BVHAccel::flatten_bvh_tree` (accelerators/bvh.rs lines
383-417) as a pure function: given the entry offset it returns the nodes
written at consecutive indices from that offset, and the offset after.
A leaf writes one node with `offset = first_prim_offset`; an interior node
recurses into child1 (written right after it), then into child2, and
stores child2's returned entry offset in its `offset` field. -/
def flatten_bvh_tree : BuildTree → ℕ → List LinearBVHNode × ℕ
  | .leaf b fpo n, off => ([⟨b, fpo, n, 0⟩], off + 1)
  | .interior b ax c1 c2, off =>
      let r1 := flatten_bvh_tree c1 (off + 1)
      let r2 := flatten_bvh_tree c2 r1.2
      (⟨b, r1.2, 0, ax⟩ :: (r1.1 ++ r2.1), r2.2)

/-- Layout invariant of the flattened array, read at absolute index `i`:
a leaf is stored with its primitive count (positive) and
`offset = first_prim_offset`; an interior node is stored with
`n_primitives = 0`, its left child at index `i + 1` and its right child at
index `nodes[i].offset`, which is `i + 1 + size c1` in the depth-first
layout. -/
def layoutOk (nodes : List LinearBVHNode) : ℕ → BuildTree → Bool
  | i, .leaf _ fpo n =>
      (nodes.getD i ⟨none, 0, 0, 0⟩).n_primitives = n && 0 < n &&
      (nodes.getD i ⟨none, 0, 0, 0⟩).offset = fpo
  | i, .interior _ _ c1 c2 =>
      (nodes.getD i ⟨none, 0, 0, 0⟩).n_primitives = 0 &&
      (nodes.getD i ⟨none, 0, 0, 0⟩).offset = i + 1 + c1.size &&
      layoutOk nodes (i + 1) c1 &&
      layoutOk nodes ((nodes.getD i ⟨none, 0, 0, 0⟩).offset) c2

/-- Bucket index of a primitive in the SAH sweep (accelerators/bvh.rs
lines 276-288 and 325-335): `(12 * offset(centroid)[dim]) as usize`, and
`12` is moved back to bucket `11`.  The `as usize` cast truncates toward
zero (and saturates below at zero). -/
def bucketOf (cb : Bounds3) (dim : ℕ) (p : PrimInfo) : ℕ :=
  let b := Int.toNat ⌊12 * offsetComp cb p.centroid dim⌋
  if b = 12 then 11 else b

/-- Union of the bounds of the primitives of a list — the accumulation
loop of `recursive_build` starting from the default (empty) box. -/
def unionBoundsOf (prims : List PrimInfo) : Option Bounds3 :=
  prims.foldl (fun acc p => unionOB acc (some p.bounds)) none

/-- Union of the centroids of the primitives of a list — the
`centroid_bounds` accumulation loop of `recursive_build`. -/
def centroidBoundsOf (prims : List PrimInfo) : Option Bounds3 :=
  prims.foldl (fun acc p => unionOP acc p.centroid) none

/-- Primitive count of SAH bucket `k` (the `buckets[b].count` tally). -/
def bucketCount (cb : Bounds3) (dim : ℕ) (prims : List PrimInfo) (k : ℕ) : ℕ :=
  (prims.filter (fun p => bucketOf cb dim p = k)).length

/-- Bounds of SAH bucket `k` (the `buckets[b].bounds` running union, taken
over the primitives falling in bucket `k` in list order). -/
def bucketBnds (cb : Bounds3) (dim : ℕ) (prims : List PrimInfo) (k : ℕ) :
    Option Bounds3 :=
  unionBoundsOf (prims.filter (fun p => bucketOf cb dim p = k))

/-- SAH cost of splitting after bucket `i` (accelerators/bvh.rs lines
290-308): `1 + (count0·area(b0) + count1·area(b1)) / area(bounds)`, where
`b0`/`count0` accumulate buckets `0..=i` and `b1`/`count1` accumulate
buckets `i+1..12`. -/
def sahCost (cb : Bounds3) (dim : ℕ) (prims : List PrimInfo)
    (bounds : Option Bounds3) (i : ℕ) : ℚ :=
  let b0 := ((List.range (i + 1)).map (bucketBnds cb dim prims)).foldl unionOB none
  let b1 := (((List.range 12).drop (i + 1)).map (bucketBnds cb dim prims)).foldl unionOB none
  let count0 := ((List.range (i + 1)).map (bucketCount cb dim prims)).sum
  let count1 := (((List.range 12).drop (i + 1)).map (bucketCount cb dim prims)).sum
  1 + ((count0 : ℚ) * surfaceAreaO b0 + (count1 : ℚ) * surfaceAreaO b1) /
    surfaceAreaO bounds

/-- Minimum-cost scan of accelerators/bvh.rs lines 310-317: starting from
`(cost[0], 0)`, replace the tracked pair whenever a strictly smaller cost
appears; this keeps the first index attaining the minimum. -/
def minCostScan (costs : List ℚ) : ℚ × ℕ :=
  costs.enum.foldl (fun acc ic => if ic.2 < acc.1 then (ic.2, ic.1) else acc)
    (costs.getD 0 0, 0)

/-- Outcome of one `recursive_build` invocation on a primitive range:
either a leaf holding all of the range's primitives, or a partition into
two sub-ranges that are both recursed into, tagged with the split axis. -/
inductive StepResult where
  | leafAll (prims : List PrimInfo)
  | split (left right : List PrimInfo) (dim : ℕ)
  deriving Repr, DecidableEq

/-- Embeds the partition decision of one `recursive_build` invocation
(accelerators/bvh.rs lines 203-381) for the SAH split method, acting on
the primitive slice `primitive_info[start..end)`: a leaf for a single
primitive or a degenerate centroid bound; the midpoint split with an
out-of-order swap for `n ≤ 2`; otherwise the 12-bucket SAH sweep, which
splits at the minimum-cost bucket when `n > max_prims_in_node` or the
minimum cost is below the leaf cost `n`, and emits a leaf otherwise.  (The
recursion itself, arena node allocation, and the `ordered_prims`
reordering are not part of this decision.) -/
def recursiveBuildStep (maxPrims : ℕ) (prims : List PrimInfo) : StepResult :=
  let n := prims.length
  if n = 1 then .leafAll prims
  else
    match hcb : centroidBoundsOf prims with
    | none => .leafAll prims
    | some cbb =>
      let dim := maximumExtent cbb
      if cbb.pMax.comp dim = cbb.pMin.comp dim then .leafAll prims
      else if n ≤ 2 then
        let prims2 :=
          if (prims.getLast?.getD ⟨0, ⟨⟨0,0,0⟩,⟨0,0,0⟩⟩, ⟨0,0,0⟩⟩).centroid.comp dim <
              ((prims.head?.getD ⟨0, ⟨⟨0,0,0⟩,⟨0,0,0⟩⟩, ⟨0,0,0⟩⟩)).centroid.comp dim
          then prims.reverse else prims
        .split (prims2.take (n / 2)) (prims2.drop (n / 2)) dim
      else
        let bounds := unionBoundsOf prims
        let costs := (List.range 11).map (sahCost cbb dim prims bounds)
        let mc := minCostScan costs
        if maxPrims < n ∨ mc.1 < (n : ℚ) then
          let pr := prims.partition (fun p => bucketOf cbb dim p ≤ mc.2)
          .split pr.1 pr.2 dim
        else .leafAll prims

end BVH


namespace BDPT

/-- The scalar state of a BDPT path `Vertex` (integrators/bdpt.rs struct
`Vertex`) that `mis_weight` reads: the degeneracy flag `delta`, the forward
and reverse sampling densities `pdf_fwd` / `pdf_rev`, and the value of
`is_delta_light()` (a function of the vertex type and light flags, constant
under the scalar overrides `mis_weight` applies). -/
structure MisVertex where
  delta : Bool
  pdf_fwd : ℚ
  pdf_rev : ℚ
  isDeltaLight : Bool

/-- The default vertex used to totalise list indexing (the Rust code only
indexes in bounds). -/
def mvDefault : MisVertex := ⟨false, 0, 0, false⟩

/-- The `remap0` helper of `mis_weight` (bdpt.rs lines 2169-2176 and
2149-2156): a zero density is replaced by `1` so Dirac deltas cancel. -/
def remap0 (x : ℚ) : ℚ := if x = 0 then 1 else x

/-- The camera-subpath loop of `mis_weight` (bdpt.rs lines 2129-2162):
starting from `ri = 1` at `i = t - 1` and walking down to `i = 1`, multiply
`ri` by `remap0(cv1.pdf_rev) / remap0(cv1.pdf_fwd)` and add it to the sum
when neither `cv1` nor `cv0` is degenerate.  `f i` returns the pair
`(cv1, cv0)` the loop reads at index `i`. -/
def cameraWalkAux (f : ℕ → MisVertex × MisVertex) : ℕ → ℚ → ℚ
  | 0, _ => 0
  | i + 1, ri =>
      let cv1 := (f (i + 1)).1
      let cv0 := (f (i + 1)).2
      let ri2 := ri * (remap0 cv1.pdf_rev / remap0 cv1.pdf_fwd)
      (if cv1.delta = false ∧ cv0.delta = false then ri2 else 0) + cameraWalkAux f i ri2

/-- The light-subpath loop of `mis_weight` (bdpt.rs lines 2164-2209):
starting from `ri = 1` at `i = s - 1` and walking down to `i = 0`, multiply
`ri` by `remap0(lv1.pdf_rev) / remap0(lv1.pdf_fwd)` and add it to the sum
when `lv1` is not degenerate and the delta test `dt i` (the predecessor's
`delta`, or `is_delta_light()` at `i = 0`) fails.  The argument `n + 1`
processes index `i = n`. -/
def lightWalkAux (g : ℕ → MisVertex) (dt : ℕ → Bool) : ℕ → ℚ → ℚ
  | 0, _ => 0
  | n + 1, ri =>
      let lv1 := g n
      let ri2 := ri * (remap0 lv1.pdf_rev / remap0 lv1.pdf_fwd)
      (if lv1.delta = false ∧ dt n = false then ri2 else 0) + lightWalkAux g dt n ri2

/-- Embeds `mis_weight` (bdpt.rs lines 1518-2211) over the scalar vertex
state.  The strategy `(s, t)` connects a light subpath of `s` vertices to a
camera subpath of `t` vertices; `sampled` is the resampled endpoint used by
the `s = 1` and `t = 1` strategies.  The four `..PdfRev` parameters are the
reverse densities the Rust code computes from the scene for the temporarily
overridden border vertices `pt` (camera index `t - 1`, also marked
non-degenerate), `pt_minus` (camera index `t - 2`), `qs` (light index
`s - 1`, also marked non-degenerate) and `qs_minus` (light index `s - 2`);
they are inputs here because the scene queries behind them
(`Vertex::pdf`, `pdf_light`, `pdf_light_origin`) are outside the scalar
state.  Paths with `s + t = 2` return 1 immediately. -/
def misWeight (lightVertices cameraVertices : List MisVertex) (sampled : MisVertex)
    (s t : ℕ) (ptPdfRev ptMinusPdfRev qsPdfRev qsMinusPdfRev : ℚ) : ℚ :=
  if s + t = 2 then 1
  else
    let pt : MisVertex :=
      { cameraVertices.getD (t - 1) mvDefault with delta := false, pdf_rev := ptPdfRev }
    let ptMinus : MisVertex :=
      { cameraVertices.getD (t - 2) mvDefault with pdf_rev := ptMinusPdfRev }
    let qs : MisVertex :=
      { (if s = 1 then sampled else lightVertices.getD (s - 1) mvDefault) with
          delta := false, pdf_rev := qsPdfRev }
    let qsMinus : MisVertex :=
      { lightVertices.getD (s - 2) mvDefault with pdf_rev := qsMinusPdfRev }
    let cv1 : ℕ → MisVertex := fun i =>
      if i = t - 1 then pt
      else if i = t - 2 then ptMinus
      else cameraVertices.getD i mvDefault
    let cv0 : ℕ → MisVertex := fun i =>
      if i = t - 1 then ptMinus else cameraVertices.getD (i - 1) mvDefault
    let lv1 : ℕ → MisVertex := fun i =>
      if i = s - 1 then qs
      else if i = s - 2 then qsMinus
      else lightVertices.getD i mvDefault
    let dt : ℕ → Bool := fun i =>
      if 0 < i then
        if i = s - 1 then
          (if 1 < s then qsMinus.delta else (lightVertices.getD (i - 1) mvDefault).delta)
        else (lightVertices.getD (i - 1) mvDefault).delta
      else (lv1 i).isDeltaLight
    let sumCam := cameraWalkAux (fun i => (cv1 i, cv0 i)) (t - 1) 1
    let sumLight := lightWalkAux lv1 dt s 1
    1 / (1 + (sumCam + sumLight))

/-- The light subpath a delta-free path of `k` vertices with light-side
densities `af` and camera-side densities `bf` presents to strategy `s`:
vertex `i` carries `pdf_fwd = af i` and `pdf_rev = bf i`. -/
def lightList (af bf : ℕ → ℚ) (s : ℕ) : List MisVertex :=
  (List.range s).map (fun i => ⟨false, af i, bf i, false⟩)

/-- The camera subpath of the same path for strategy `s` with `t = k - s`
vertices: camera index `j` is path vertex `k - 1 - j`, carrying
`pdf_fwd = bf (k - 1 - j)` and `pdf_rev = af (k - 1 - j)`. -/
def cameraList (af bf : ℕ → ℚ) (k t : ℕ) : List MisVertex :=
  (List.range t).map (fun j => ⟨false, bf (k - 1 - j), af (k - 1 - j), false⟩)

/-- The unnormalised strategy density ratio: `gq s` is the product over the
first `s` path vertices of `af m / bf m`, so that `p_s / p_0 = gq s` for the
path density `p_s` of strategy `s`. -/
def gq (af bf : ℕ → ℚ) (n : ℕ) : ℚ := ∏ m ∈ Finset.range n, (af m / bf m)

end BDPT

open scoped Classical

noncomputable section

namespace RG

/-- Modelled from the spec: `Vector3f` / `Normal3f` of core/geometry.rs (a
file not under src/), with real components (the idealisation of `f32`). -/
structure Vec3 where
  x : ℝ
  y : ℝ
  z : ℝ

/-- Modelled from the spec: the dot product of core/geometry.rs (the
`vec3_dot_vec3f` / `vec3_dot_nrmf` / `nrm_dot_vec3f` / `nrm_dot_nrmf`
family all compute the same sum of products). -/
def dot (a b : Vec3) : ℝ := a.x * b.x + a.y * b.y + a.z * b.z

/-- Componentwise negation. -/
def Vec3.neg (a : Vec3) : Vec3 := ⟨-a.x, -a.y, -a.z⟩

/-- Scalar multiple. -/
def Vec3.smul (t : ℝ) (a : Vec3) : Vec3 := ⟨t * a.x, t * a.y, t * a.z⟩

/-- Componentwise sum. -/
def Vec3.add (a b : Vec3) : Vec3 := ⟨a.x + b.x, a.y + b.y, a.z + b.z⟩

/-- Componentwise difference. -/
def Vec3.sub (a b : Vec3) : Vec3 := ⟨a.x - b.x, a.y - b.y, a.z - b.z⟩

/-- Modelled from the spec: `clamp_t` of core/pbrt.rs at type `Float`. -/
def clampR (val low high : ℝ) : ℝ :=
  if val < low then low else if val > high then high else val

end RG

namespace Refl

open RG

/-- RGB spectrum with real components (core/spectrum.rs is not under src/;
the spec describes componentwise arithmetic on RGB triples). -/
structure Spectrum where
  r : ℝ
  g : ℝ
  b : ℝ

/-- The black spectrum (`Spectrum::default()` / `Spectrum::new(0.0)`). -/
def Spectrum.zero : Spectrum := ⟨0, 0, 0⟩

/-- Componentwise sum of spectra. -/
def Spectrum.add (a b : Spectrum) : Spectrum := ⟨a.r + b.r, a.g + b.g, a.b + b.b⟩

/-- Componentwise product of spectra. -/
def Spectrum.mul (a b : Spectrum) : Spectrum := ⟨a.r * b.r, a.g * b.g, a.b * b.b⟩

/-- Scalar multiple of a spectrum. -/
def Spectrum.scale (t : ℝ) (a : Spectrum) : Spectrum := ⟨t * a.r, t * a.g, t * a.b⟩

/-- Division of a spectrum by a scalar. -/
def Spectrum.divS (a : Spectrum) (t : ℝ) : Spectrum := ⟨a.r / t, a.g / t, a.b / t⟩

/-- BsdfReflection of the `BxdfType` bitset (reflection.rs lines 449-457). -/
def bsdfReflection : ℕ := 1

/-- BsdfTransmission of the `BxdfType` bitset. -/
def bsdfTransmission : ℕ := 2

/-- BsdfSpecular of the `BxdfType` bitset. -/
def bsdfSpecular : ℕ := 16

/-- BsdfAll of the `BxdfType` bitset. -/
def bsdfAll : ℕ := 31

/-- Embeds `cos_theta` (reflection.rs line 1804). -/
def cos_theta (w : Vec3) : ℝ := w.z

/-- Embeds `abs_cos_theta` (reflection.rs line 1816). -/
def abs_cos_theta (w : Vec3) : ℝ := |w.z|

/-- Embeds `vec3_same_hemisphere_vec3` (reflection.rs line 1913). -/
def sameHemisphere (w wp : Vec3) : Prop := w.z * wp.z > 0

/-- The float constant `INV_PI` of core/pbrt.rs, idealised as `1 / π`. -/
def INV_PI : ℝ := 1 / Real.pi

/-- The float constant `FLOAT_ONE_MINUS_EPSILON` of core/rng.rs (a file
not under src/): the largest `f32` below one, `1 - 2⁻²⁴`. -/
def oneMinusEpsilon : ℝ := 1 - 1 / 2 ^ 24

/-- Embeds `fr_dielectric` (reflection.rs lines 1921-1950): clamp the
cosine, swap the indices when exiting, apply Snell's law, return `1` on
total internal reflection, else the average of the two squared Fresnel
amplitudes. -/
def fr_dielectric (cosThetaI etaI etaT : ℝ) : ℝ :=
  let c0 := clampR cosThetaI (-1) 1
  let entering := c0 > 0
  let ei := if entering then etaI else etaT
  let et := if entering then etaT else etaI
  let ci := if entering then c0 else |c0|
  let sinThetaI := Real.sqrt (max 0 (1 - ci * ci))
  let sinThetaT := ei / et * sinThetaI
  if sinThetaT ≥ 1 then 1
  else
    let cosThetaT := Real.sqrt (max 0 (1 - sinThetaT * sinThetaT))
    let rParl := (et * ci - ei * cosThetaT) / (et * ci + ei * cosThetaT)
    let rPerp := (ei * ci - et * cosThetaT) / (ei * ci + et * cosThetaT)
    (rParl * rParl + rPerp * rPerp) / 2

/-- Embeds `refract` (reflection.rs lines 1898-1910): `none` on total
internal reflection, otherwise the refracted direction. -/
def refract (wi : Vec3) (n : Vec3) (eta : ℝ) : Option Vec3 :=
  let cosThetaI := dot n wi
  let sin2ThetaI := max 0 (1 - cosThetaI * cosThetaI)
  let sin2ThetaT := eta * eta * sin2ThetaI
  if sin2ThetaT ≥ 1 then none
  else
    let cosThetaT := Real.sqrt (1 - sin2ThetaT)
    some (Vec3.add (Vec3.smul eta (Vec3.neg wi)) (Vec3.smul (eta * cosThetaI - cosThetaT) n))

/-- Modelled from the spec: `nrm_faceforward_vec3` of core/geometry.rs —
flip `n` into the hemisphere of `v`. -/
def faceforward (n v : Vec3) : Vec3 := if dot n v < 0 then n.neg else n

/-- Embeds `TransportMode` of core/material.rs. -/
inductive TransportMode where
  | radiance
  | importance
  deriving DecidableEq

/-- Result of a lobe-level `sample_f`: the out-parameters `wi`, `pdf` and
`sampled_type`, plus the returned spectrum. -/
structure LobeSample where
  wi : Vec3
  pdf : ℝ
  f : Spectrum
  st : ℕ

/-- A BxDF lobe as the record of operations that the tagged `Bxdf` enum of
core/reflection.rs dispatches uniformly to its variant: `get_type` (the
flags bitset), `f`, `sample_f` (receiving the caller's current `wi`,
`pdf` and `sampled_type` values, which the Rust code leaves untouched on
early returns) and `pdf`. -/
structure Bxdf where
  typ : ℕ
  fF : Vec3 → Vec3 → Spectrum
  sampleF : Vec3 → ℝ × ℝ → Vec3 → ℝ → ℕ → LobeSample
  pdfF : Vec3 → Vec3 → ℝ

/-- Embeds `Bxdf::matches_flags`: `get_type() & t == get_type()`. -/
def Bxdf.matchesFlags (b : Bxdf) (t : ℕ) : Bool := b.typ &&& t == b.typ

/-- Embeds `SpecularTransmission::pdf` (reflection.rs lines 829-835):
`abs_cos_theta(wi) * INV_PI` in the same hemisphere, else `0`. -/
def specularTransmissionPdf (wo wi : Vec3) : ℝ :=
  if sameHemisphere wo wi then abs_cos_theta wi * INV_PI else 0

/-- Embeds `FresnelSpecular::pdf` (reflection.rs lines 939-945) — the same
expression as `SpecularTransmission::pdf`. -/
def fresnelSpecularPdf (wo wi : Vec3) : ℝ :=
  if sameHemisphere wo wi then abs_cos_theta wi * INV_PI else 0

/-- Embeds `SpecularTransmission::sample_f` (reflection.rs lines
788-828). -/
def specularTransmissionSampleF (t : Spectrum) (etaA etaB : ℝ)
    (mode : TransportMode) (scOpt : Option Spectrum) (wo : Vec3) (_u : ℝ × ℝ)
    (wiIn : Vec3) (pdfIn : ℝ) (stIn : ℕ) : LobeSample :=
  let entering := cos_theta wo > 0
  let etaI := if entering then etaA else etaB
  let etaT := if entering then etaB else etaA
  match refract wo (faceforward ⟨0, 0, 1⟩ wo) (etaI / etaT) with
  | none => ⟨wiIn, pdfIn, Spectrum.zero, stIn⟩
  | some wi =>
      let ft0 := Spectrum.scale (1 - fr_dielectric (cos_theta wi) etaA etaB) t
      let ft := if mode = TransportMode.radiance then
          Spectrum.scale ((etaI * etaI) / (etaT * etaT)) ft0
        else ft0
      let val := match scOpt with
        | some sc => (Spectrum.mul sc ft).divS (abs_cos_theta wi)
        | none => ft.divS (abs_cos_theta wi)
      ⟨wi, 1, val, stIn⟩

/-- Embeds `FresnelSpecular::sample_f` (reflection.rs lines 872-937):
choose reflection with probability `F = fr_dielectric(...)` (reporting
`pdf = F`), else refract (reporting `pdf = 1 - F`; black with the caller's
`pdf` untouched on total internal reflection). -/
def fresnelSpecularSampleF (r t : Spectrum) (etaA etaB : ℝ)
    (mode : TransportMode) (scOpt : Option Spectrum) (wo : Vec3) (u : ℝ × ℝ)
    (wiIn : Vec3) (pdfIn : ℝ) (stIn : ℕ) : LobeSample :=
  let f := fr_dielectric (cos_theta wo) etaA etaB
  if u.1 < f then
    let wi : Vec3 := ⟨-wo.x, -wo.y, wo.z⟩
    let st := if stIn ≠ 0 then bsdfReflection ||| bsdfSpecular else stIn
    let val := match scOpt with
      | some sc => (Spectrum.scale f (Spectrum.mul sc r)).divS (abs_cos_theta wi)
      | none => (Spectrum.scale f r).divS (abs_cos_theta wi)
    ⟨wi, f, val, st⟩
  else
    let entering := cos_theta wo > 0
    let etaI := if entering then etaA else etaB
    let etaT := if entering then etaB else etaA
    match refract wo (faceforward ⟨0, 0, 1⟩ wo) (etaI / etaT) with
    | none => ⟨wiIn, pdfIn, Spectrum.zero, stIn⟩
    | some wi =>
        let ft0 := Spectrum.scale (1 - f) t
        let ft := if mode = TransportMode.radiance then
            Spectrum.scale ((etaI * etaI) / (etaT * etaT)) ft0
          else ft0
        let st := if stIn ≠ 0 then bsdfTransmission ||| bsdfSpecular else stIn
        let val := match scOpt with
          | some sc => (Spectrum.mul sc ft).divS (abs_cos_theta wi)
          | none => ft.divS (abs_cos_theta wi)
        ⟨wi, 1 - f, val, st⟩

/-- The `SpecularTransmission` lobe packaged as a `Bxdf` record (`f ≡ 0`,
type `Transmission | Specular`). -/
def specularTransmission (t : Spectrum) (etaA etaB : ℝ) (mode : TransportMode)
    (scOpt : Option Spectrum) : Bxdf :=
  ⟨bsdfTransmission ||| bsdfSpecular, fun _ _ => Spectrum.zero,
   specularTransmissionSampleF t etaA etaB mode scOpt, specularTransmissionPdf⟩

/-- The `FresnelSpecular` lobe packaged as a `Bxdf` record (`f ≡ 0`, type
`Reflection | Transmission | Specular`). -/
def fresnelSpecular (r t : Spectrum) (etaA etaB : ℝ) (mode : TransportMode)
    (scOpt : Option Spectrum) : Bxdf :=
  ⟨bsdfReflection ||| bsdfTransmission ||| bsdfSpecular, fun _ _ => Spectrum.zero,
   fresnelSpecularSampleF r t etaA etaB mode scOpt, fresnelSpecularPdf⟩

/-- Embeds `struct Bsdf` of core/reflection.rs. -/
structure Bsdf where
  eta : ℝ
  ns : Vec3
  ng : Vec3
  ss : Vec3
  ts : Vec3
  bxdfs : List Bxdf

/-- Embeds `Bsdf::world_to_local`. -/
def Bsdf.world_to_local (bs : Bsdf) (v : Vec3) : Vec3 :=
  ⟨dot v bs.ss, dot v bs.ts, dot v bs.ns⟩

/-- Embeds `Bsdf::local_to_world`. -/
def Bsdf.local_to_world (bs : Bsdf) (v : Vec3) : Vec3 :=
  ⟨bs.ss.x * v.x + bs.ts.x * v.y + bs.ns.x * v.z,
   bs.ss.y * v.x + bs.ts.y * v.y + bs.ns.y * v.z,
   bs.ss.z * v.x + bs.ts.z * v.y + bs.ns.z * v.z⟩

/-- Embeds `Bsdf::num_components` (reflection.rs lines 250-259). -/
def Bsdf.num_components (bs : Bsdf) (flags : ℕ) : ℕ :=
  bs.bxdfs.foldl (fun num b => if b.matchesFlags flags then num + 1 else num) 0

/-- The lobe-selection scan of `Bsdf::sample_f` (reflection.rs lines
320-339): walk the lobe vector, decrementing `count` at each matching
lobe, and return the `count`-th matching lobe with its vector index. -/
def findMatchingAux : List Bxdf → ℕ → ℕ → ℕ → Option (Bxdf × ℕ)
  | [], _, _, _ => none
  | b :: rest, flags, count, i =>
      if b.matchesFlags flags then
        if count = 0 then some (b, i)
        else findMatchingAux rest flags (count - 1) (i + 1)
      else findMatchingAux rest flags count (i + 1)

/-- The reflect-or-transmit half-space test of `Bsdf::f` and of the f
re-evaluation in `Bsdf::sample_f`: a lobe participates when its
Reflection (resp. Transmission) bit agrees with the geometric test. -/
def hemisphereMatches (reflect : Prop) (b : Bxdf) : Prop :=
  (reflect ∧ b.typ &&& bsdfReflection ≠ 0) ∨ (¬ reflect ∧ b.typ &&& bsdfTransmission ≠ 0)

/-- The lobe sum of `Bsdf::f` (reflection.rs lines 284-295), also used by
the f re-evaluation of `Bsdf::sample_f` (lines 398-410). -/
def sumMatchingF (l : List Bxdf) (flags : ℕ) (reflect : Prop) (wo wi : Vec3) : Spectrum :=
  l.foldl (fun acc b =>
    if b.matchesFlags flags ∧ hemisphereMatches reflect b
    then acc.add (b.fF wo wi) else acc) Spectrum.zero

/-- Embeds `Bsdf::f` (reflection.rs lines 274-296). -/
def Bsdf.f (bs : Bsdf) (woW wiW : Vec3) (flags : ℕ) : Spectrum :=
  let wi := bs.world_to_local wiW
  let wo := bs.world_to_local woW
  if wo.z = 0 then Spectrum.zero
  else
    let reflect := dot wiW bs.ng * dot woW bs.ng > 0
    sumMatchingF bs.bxdfs flags reflect wo wi

/-- The pdf accumulation of `Bsdf::sample_f` over all matching lobes other
than the sampled one (reflection.rs lines 382-389). -/
def sumPdfExcept (l : List Bxdf) (flags : ℕ) (skip : ℕ) (wo wi : Vec3) : ℝ :=
  l.enum.foldl (fun acc ib =>
    if ib.1 ≠ skip ∧ ib.2.matchesFlags flags then acc + ib.2.pdfF wo wi else acc) 0

/-- The pdf accumulation of `Bsdf::pdf` over all matching lobes
(reflection.rs lines 435-440; that loop also counts the matching lobes,
which `Bsdf.num_components` recomputes identically). -/
def sumPdfAll (l : List Bxdf) (flags : ℕ) (wo wi : Vec3) : ℝ :=
  l.foldl (fun acc b => if b.matchesFlags flags then acc + b.pdfF wo wi else acc) 0

/-- Result of `Bsdf::sample_f`: the returned spectrum and the
out-parameters `wi_world`, `pdf` and `sampled_type`. -/
structure SampleFResult where
  f : Spectrum
  wiWorld : Vec3
  pdf : ℝ
  sampledType : ℕ

/-- Embeds `Bsdf::sample_f` (reflection.rs lines 298-421): count matching
lobes, pick the `comp`-th matching lobe with
`comp = min(⌊u.x·M⌋, M−1)`, remap `u.x` (capped at
`FLOAT_ONE_MINUS_EPSILON`), delegate to the chosen lobe, then — for a
non-specular chosen lobe with `M > 1` — add the other matching lobes'
pdfs and divide by `M`, and re-evaluate `f` as the half-space-correct sum
over matching lobes.  The caller-visible values `wi_world`, `pdf` and
`sampled_type` are threaded explicitly because Rust's early returns leave
them untouched. -/
def Bsdf.sample_f (bs : Bsdf) (woWorld : Vec3) (wiWorldIn : Vec3) (u : ℝ × ℝ)
    (pdfIn : ℝ) (bsdfFlags : ℕ) (stIn : ℕ) : SampleFResult :=
  let matching := bs.num_components bsdfFlags
  if matching = 0 then ⟨Spectrum.zero, wiWorldIn, 0, 0⟩
  else
    let comp := min (Int.toNat ⌊u.1 * (matching : ℝ)⌋) (matching - 1)
    match findMatchingAux bs.bxdfs bsdfFlags comp 0 with
    | none => ⟨Spectrum.zero, wiWorldIn, pdfIn, stIn⟩
    | some (bxdf, bxdfIndex) =>
      let uRemapped : ℝ × ℝ :=
        (min (u.1 * (matching : ℝ) - (comp : ℝ)) oneMinusEpsilon, u.2)
      let wo := bs.world_to_local woWorld
      if wo.z = 0 then ⟨Spectrum.zero, wiWorldIn, pdfIn, stIn⟩
      else
        let st0 := if stIn ≠ 0 then bxdf.typ else stIn
        let ls := bxdf.sampleF wo uRemapped ⟨0, 0, 0⟩ 0 st0
        if ls.pdf = 0 then ⟨Spectrum.zero, wiWorldIn, ls.pdf, if ls.st ≠ 0 then 0 else ls.st⟩
        else
          let wiWorld := bs.local_to_world ls.wi
          let pdf2 := if bxdf.typ &&& bsdfSpecular = 0 ∧ matching > 1 then
              ls.pdf + sumPdfExcept bs.bxdfs bsdfFlags bxdfIndex wo ls.wi
            else ls.pdf
          let pdf3 := if matching > 1 then pdf2 / (matching : ℝ) else pdf2
          let fOut := if bxdf.typ &&& bsdfSpecular = 0 then
              let reflect := dot wiWorld bs.ng * dot woWorld bs.ng > 0
              sumMatchingF bs.bxdfs bsdfFlags reflect wo ls.wi
            else ls.f
          ⟨fOut, wiWorld, pdf3, ls.st⟩

/-- Embeds `Bsdf::pdf` (reflection.rs lines 422-446). -/
def Bsdf.pdf (bs : Bsdf) (woWorld wiWorld : Vec3) (flags : ℕ) : ℝ :=
  if bs.bxdfs.length = 0 then 0
  else
    let wo := bs.world_to_local woWorld
    let wi := bs.world_to_local wiWorld
    if wo.z = 0 then 0
    else
      let matching := bs.num_components flags
      if matching > 0 then sumPdfAll bs.bxdfs flags wo wi / (matching : ℝ) else 0


/-- A two-lobe reflection/transmission pair used to exercise the
multi-lobe branch of `Bsdf::sample_f` on a concrete instance. -/
def c3Lobe1 : Bxdf :=
  ⟨bsdfReflection, fun _ _ => ⟨1, 0, 0⟩,
   fun _ _ _ _ st => ⟨⟨0, 0, 1⟩, 1 / 2, ⟨1, 1, 1⟩, st⟩, fun _ _ => 1 / 2⟩

/-- Companion transmission lobe of the two-lobe instance. -/
def c3Lobe2 : Bxdf :=
  ⟨bsdfTransmission, fun _ _ => ⟨0, 1, 0⟩,
   fun _ _ _ _ st => ⟨⟨0, 0, 1⟩, 1 / 3, ⟨1, 1, 1⟩, st⟩, fun _ _ => 1 / 3⟩

/-- A `Bsdf` in the canonical shading frame holding the two lobes. -/
def c3Bsdf : Bsdf := ⟨1, ⟨0, 0, 1⟩, ⟨0, 0, 1⟩, ⟨1, 0, 0⟩, ⟨0, 1, 0⟩, [c3Lobe1, c3Lobe2]⟩

/-- A lobe whose reported sample pdf echoes the `u.x` it receives, making
the remap of `u.x` observable in the result of `Bsdf::sample_f`. -/
def c3CapLobe : Bxdf :=
  ⟨bsdfReflection, fun _ _ => ⟨0, 0, 0⟩,
   fun _ uu _ _ st => ⟨⟨0, 0, 1⟩, uu.1, ⟨1, 1, 1⟩, st⟩, fun _ _ => 1⟩

/-- A one-lobe `Bsdf` around `c3CapLobe`. -/
def c3CapBsdf : Bsdf := ⟨1, ⟨0, 0, 1⟩, ⟨0, 0, 1⟩, ⟨1, 0, 0⟩, ⟨0, 1, 0⟩, [c3CapLobe]⟩


end Refl

namespace BSSRDF

open RG Sampling

/-- The probe surface interaction state that `pdf_sp` and the selection
tail of `sample_sp` read: the hit position and normal. -/
structure SurfaceProbe where
  p : Vec3
  n : Vec3

/-- The default probe used to totalise list indexing (the Rust code only
indexes in bounds). -/
def probeDefault : SurfaceProbe := ⟨⟨0, 0, 0⟩, ⟨0, 0, 0⟩⟩

/-- The state of `TabulatedBssrdf` (core/bssrdf.rs) that `pdf_sp` and the
selection tail of `sample_sp` read: the exit point `po_p`, the local frame
`ss` / `ts` / `ns`, and the radial profile pdf `pdf_sr` indexed by RGB
channel.  `pdf_sr` interpolates the `BssrdfTable` through
core/interpolation.rs, a file not under src/, so it enters as a function
field. -/
structure TabulatedBssrdf where
  poP : Vec3
  ss : Vec3
  ts : Vec3
  ns : Vec3
  pdf_sr : ℕ → ℝ → ℝ

/-- Indexing a local-frame triple by axis, as `n_local[axis]` does via the
`Index` impl on `Normal3f`. -/
def vecAt (v : Vec3) (i : ℕ) : ℝ := if i = 0 then v.x else if i = 1 then v.y else v.z

/-- The local coordinates of `po_p - pi.p` at `po` (bssrdf.rs lines
110-116). -/
def dLocal (bs : TabulatedBssrdf) (pi : SurfaceProbe) : Vec3 :=
  ⟨dot bs.ss (Vec3.sub bs.poP pi.p), dot bs.ts (Vec3.sub bs.poP pi.p),
   dot bs.ns (Vec3.sub bs.poP pi.p)⟩

/-- The local coordinates of the probe normal (bssrdf.rs lines 117-122). -/
def nLocal (bs : TabulatedBssrdf) (pi : SurfaceProbe) : Vec3 :=
  ⟨dot bs.ss pi.n, dot bs.ts pi.n, dot bs.ns pi.n⟩

/-- The profile radius under projection along each of the three axes
(bssrdf.rs lines 123-128). -/
def rProjList (bs : TabulatedBssrdf) (pi : SurfaceProbe) : List ℝ :=
  [Real.sqrt ((dLocal bs pi).y * (dLocal bs pi).y + (dLocal bs pi).z * (dLocal bs pi).z),
   Real.sqrt ((dLocal bs pi).z * (dLocal bs pi).z + (dLocal bs pi).x * (dLocal bs pi).x),
   Real.sqrt ((dLocal bs pi).x * (dLocal bs pi).x + (dLocal bs pi).y * (dLocal bs pi).y)]

/-- Embeds `TabulatedBssrdf::pdf_sp` (bssrdf.rs lines 108-141): accumulate
`pdf_sr(ch, r_proj[axis]) * |n_local[axis]| * ch_prob * axis_prob[axis]`
over the three axes and three channels. -/
def pdf_sp (bs : TabulatedBssrdf) (pi : SurfaceProbe) : ℝ :=
  let axisProb : List ℝ := [1 / 4, 1 / 4, 1 / 2]
  let chProb : ℝ := 1 / 3
  (List.range 3).foldl (fun pdf axis =>
    (List.range 3).foldl (fun pdf2 ch =>
      pdf2 + bs.pdf_sr ch ((rProjList bs pi).getD axis 0)
        * |vecAt (nLocal bs pi) axis| * chProb * axisProb.getD axis 0) pdf) 0

/-- Embeds the selection tail of `TabulatedBssrdf::sample_sp` (bssrdf.rs
lines 249-298).  The probe loop that precedes it (lines 142-248) casts rays
into the scene to build the chain of admissible same-material
intersections, so the chain is an input; `n_found` is its length.  With no
hit, the `pdf` out-parameter and probe are left untouched; otherwise
`selected = clamp((u1 * n_found) as usize, 0, n_found - 1)` picks a chain
entry, the probe becomes `chain[selected]`, and the reported pdf is
`pdf_sp(chain[selected]) / n_found`. -/
def sample_sp_tail (bs : TabulatedBssrdf) (chain : List SurfaceProbe) (u1 : ℝ)
    (pdfIn : ℝ) (piIn : SurfaceProbe) : ℝ × SurfaceProbe :=
  if chain.length = 0 then (pdfIn, piIn)
  else
    let selected := clampN (Int.toNat ⌊u1 * (chain.length : ℝ)⌋) 0 (chain.length - 1)
    (pdf_sp bs (chain.getD selected probeDefault) / (chain.length : ℝ),
     chain.getD selected probeDefault)

/-- A concrete `TabulatedBssrdf` in the canonical frame with a constant
radial profile pdf, used to instantiate the theorems. -/
def c7Bssrdf : TabulatedBssrdf := ⟨⟨0, 0, 0⟩, ⟨1, 0, 0⟩, ⟨0, 1, 0⟩, ⟨0, 0, 1⟩, fun _ _ => 1⟩

end BSSRDF

namespace MLT

/-- Embeds `PrimarySample` (integrators/mlt.rs lines 25-31): the sample
value, the iteration that last modified it, and the backup pair. -/
structure PrimarySample where
  value : ℝ
  lastModificationIteration : ℤ
  valueBackup : ℝ
  modifyBackup : ℤ

/-- `PrimarySample::default()`: all fields zero. -/
def psDefault : PrimarySample := ⟨0, 0, 0, 0⟩

/-- Embeds `PrimarySample::backup` (mlt.rs lines 34-37). -/
def PrimarySample.backup (xi : PrimarySample) : PrimarySample :=
  { xi with valueBackup := xi.value, modifyBackup := xi.lastModificationIteration }

/-- Embeds `PrimarySample::restore` (mlt.rs lines 38-41). -/
def PrimarySample.restore (xi : PrimarySample) : PrimarySample :=
  { xi with value := xi.valueBackup, lastModificationIteration := xi.modifyBackup }

/-- The `MLTSampler` state (mlt.rs lines 44-66) that `start_iteration`,
`ensure_ready`, `get_1d` and `reject` read.  `rng.uniform_float()` is
modelled from the spec as reading successive terms of a fixed stream
`rngSeq` at position `rngPos` (core/rng.rs, the PCG generator, is not under
src/; a deterministic generator is exactly a sequence read left to
right). -/
structure MLTSampler where
  sigma : ℝ
  largeStepProbability : ℝ
  x : List PrimarySample
  currentIteration : ℤ
  largeStep : Bool
  lastLargeStepIteration : ℤ
  streamCount : ℕ
  streamIndex : ℕ
  sampleIndex : ℕ
  rngSeq : ℕ → ℝ
  rngPos : ℕ

/-- Embeds `MLTSampler::start_iteration` (mlt.rs lines 125-128): advance
the iteration counter and draw whether this iteration is a large step. -/
def startIteration (s : MLTSampler) : MLTSampler :=
  { s with currentIteration := s.currentIteration + 1,
           largeStep := if s.rngSeq s.rngPos < s.largeStepProbability then true else false,
           rngPos := s.rngPos + 1 }

/-- Embeds `MLTSampler::start_stream` (mlt.rs lines 146-150). -/
def startStream (s : MLTSampler) (index : ℕ) : MLTSampler :=
  { s with streamIndex := index, sampleIndex := 0 }

/-- Embeds `MLTSampler::get_next_index` (mlt.rs lines 151-155). -/
def getNextIndex (s : MLTSampler) : ℕ × MLTSampler :=
  (s.streamIndex + s.streamCount * s.sampleIndex,
   { s with sampleIndex := s.sampleIndex + 1 })

/-- Embeds `MLTSampler::ensure_ready` (mlt.rs lines 157-190): grow `x` if
needed; refresh the sample from the rng when a large step happened since
its last modification; back it up; mutate it (a fresh uniform draw on a
large step, a wrapped Gaussian perturbation otherwise); stamp it with the
current iteration.  `erf_inv` of core/pbrt.rs is not under src/ and enters
as a function argument; `SQRT_2` is `Real.sqrt 2`. -/
def ensureReady (erfInv : ℝ → ℝ) (s : MLTSampler) (index : ℕ) : MLTSampler :=
  let x0 := if s.x.length ≤ index
    then s.x ++ List.replicate (index + 1 - s.x.length) psDefault else s.x
  let xi0 := x0.getD index psDefault
  let refreshed := xi0.lastModificationIteration < s.lastLargeStepIteration
  let xi1 := if refreshed then
      { xi0 with value := s.rngSeq s.rngPos,
                 lastModificationIteration := s.lastLargeStepIteration }
    else xi0
  let pos1 := if refreshed then s.rngPos + 1 else s.rngPos
  let xi2 := xi1.backup
  let xi3 := if s.largeStep then { xi2 with value := s.rngSeq pos1 }
    else
      let nSmall : ℤ := s.currentIteration - xi2.lastModificationIteration
      let normalSample := Real.sqrt 2 * erfInv (2 * s.rngSeq pos1 - 1)
      let effSigma := s.sigma * Real.sqrt ((nSmall : ℝ))
      let v1 := xi2.value + normalSample * effSigma
      { xi2 with value := v1 - ⌊v1⌋ }
  let xi4 := { xi3 with lastModificationIteration := s.currentIteration }
  { s with x := x0.set index xi4, rngPos := pos1 + 1 }

/-- Embeds `MLTSampler::get_1d` (mlt.rs lines 199-204): take the next
stream index, run `ensure_ready`, return the sample value. -/
def get1d (erfInv : ℝ → ℝ) (s : MLTSampler) : ℝ × MLTSampler :=
  let p := getNextIndex s
  let s2 := ensureReady erfInv p.2 p.1
  ((s2.x.getD p.1 psDefault).value, s2)

/-- Embeds `MLTSampler::reject` (mlt.rs lines 134-145): restore every
sample modified in the current iteration and step the iteration counter
back. -/
def reject (s : MLTSampler) : MLTSampler :=
  { s with
    x := s.x.map (fun xi =>
      if xi.lastModificationIteration = s.currentIteration then xi.restore else xi),
    currentIteration := s.currentIteration - 1 }

/-- The four-term rng stream of the concrete instance. -/
def c9Seq : ℕ → ℝ := fun n => [0, 1 / 4, 3 / 4, 5 / 8].getD n 0

/-- A concrete `MLTSampler` with one allocated primary sample and no
pending large-step refresh, used to instantiate the reject theorem. -/
def c9W0 : MLTSampler :=
  ⟨1, 1, [psDefault], 5, true, 0, 1, 0, 0, c9Seq, 0⟩

/-- A concrete `MLTSampler` that always takes large steps
(`large_step_probability = 1`), starting with an empty sample vector and
the stream `c9Seq` at position 0. -/
def c9S0 : MLTSampler :=
  ⟨1, 1, [], 0, true, 0, 1, 0, 0, c9Seq, 0⟩

end MLT




end

namespace Sampling

theorem getD_map_of_lt (g : ℚ → ℚ) (l : List ℚ) (i : ℕ) (h : i < l.length) :
    (l.map g).getD i 0 = g (l.getD i 0) := by
  simp [List.getD_eq_getElem?_getD, List.getElem?_map, List.getElem?_eq_getElem h]

theorem clampZ_of_mem (val hi : ℤ) (h0 : 0 ≤ val) (h1 : val ≤ hi) :
    clampZ val 0 hi = val := by
  unfold clampZ
  rw [if_neg (by omega), if_neg (by omega)]

theorem findIntervalLoop_invariant (cdf : List ℚ) (u : ℚ) :
    ∀ len first, first + len ≤ cdf.length →
      (first = 0 ∨ cdf.getD (first - 1) 0 ≤ u) →
      (first + len = cdf.length ∨ u < cdf.getD (first + len) 0) →
      first ≤ findIntervalLoop cdf u first len ∧
      findIntervalLoop cdf u first len ≤ first + len ∧
      (findIntervalLoop cdf u first len = 0 ∨
        cdf.getD (findIntervalLoop cdf u first len - 1) 0 ≤ u) ∧
      (findIntervalLoop cdf u first len = cdf.length ∨
        u < cdf.getD (findIntervalLoop cdf u first len) 0) := by
  intro len
  induction len using Nat.strong_induction_on with
  | _ len ih =>
    intro first hle hlo hhi
    rw [findIntervalLoop]
    by_cases h0 : len = 0
    · subst h0
      simp only [dif_pos]
      exact ⟨le_refl _, by omega, hlo, by simpa using hhi⟩
    · rw [dif_neg h0]
      by_cases hmid : cdf.getD (first + len / 2) 0 ≤ u
      · rw [if_pos hmid]
        have hrec := ih (len - (len / 2 + 1)) (by omega) (first + len / 2 + 1)
          (by omega) (Or.inr (by simpa using hmid))
          (by
            have : first + len / 2 + 1 + (len - (len / 2 + 1)) = first + len := by omega
            rw [this]
            exact hhi)
        exact ⟨by omega, by omega, hrec.2.2.1, hrec.2.2.2⟩
      · rw [if_neg hmid]
        have hrec := ih (len / 2) (by omega) first (by omega) hlo
          (Or.inr (not_le.mp hmid))
        exact ⟨hrec.1, by omega, hrec.2.2.1, hrec.2.2.2⟩

theorem sample_continuous_spec (d : Distribution1D) (u : ℚ)
    (hlen : d.cdf.length = d.count + 1) (hcnt : 0 < d.count)
    (hc0 : d.cdf.getD 0 0 = 0) (hc1 : d.cdf.getD d.count 0 = 1)
    (hpos : 0 < d.func_int) (hu0 : 0 ≤ u) (hu1 : u < 1) :
    ∃ r : ℕ, 1 ≤ r ∧ r ≤ d.count ∧
      d.sample_continuous u =
        ⟨(((r - 1 : ℕ) : ℚ) +
            (u - d.cdf.getD (r - 1) 0) / (d.cdf.getD r 0 - d.cdf.getD (r - 1) 0))
              / (d.count : ℚ),
          d.func.getD (r - 1) 0 / d.func_int, r - 1⟩ ∧
      d.cdf.getD (r - 1) 0 ≤ u ∧ u < d.cdf.getD r 0 := by
  have hr := findIntervalLoop_invariant d.cdf u d.cdf.length 0 (by omega)
    (Or.inl rfl) (Or.inl (Nat.zero_add _))
  set r := findIntervalLoop d.cdf u 0 d.cdf.length with hrdef
  have hr1 : 1 ≤ r := by
    by_contra hcon
    have h00 : r = 0 := by omega
    rcases hr.2.2.2 with h2 | h2
    · omega
    · rw [h00, hc0] at h2
      exact absurd h2 (not_lt.mpr hu0)
  have hrn : r ≤ d.count := by
    by_contra hcon
    have hEq : r = d.count + 1 := by omega
    rcases hr.2.2.1 with h2 | h2
    · omega
    · rw [hEq] at h2
      simp only [Nat.add_sub_cancel] at h2
      rw [hc1] at h2
      exact absurd hu1 (not_lt.mpr h2)
  have hlo : d.cdf.getD (r - 1) 0 ≤ u := by
    rcases hr.2.2.1 with h2 | h2
    · omega
    · exact h2
  have hhi : u < d.cdf.getD r 0 := by
    rcases hr.2.2.2 with h2 | h2
    · omega
    · exact h2
  refine ⟨r, hr1, hrn, ?_, hlo, hhi⟩
  have hoff : (clampZ ((r : ℤ) - 1) 0 ((d.cdf.length : ℤ) - 2)).toNat = r - 1 := by
    rw [hlen, clampZ_of_mem ((r : ℤ) - 1) _ (by omega) (by push_cast; omega)]
    omega
  have hseg : 0 < d.cdf.getD r 0 - d.cdf.getD (r - 1) 0 := by linarith
  show (⟨_, _, _⟩ : Sample1D) = _
  rw [hoff]
  have hsucc : r - 1 + 1 = r := by omega
  rw [hsucc, if_pos hseg, if_pos hpos]

theorem new_func (f : List ℚ) : (Distribution1D.new f).func = f := rfl

theorem new_func_int (f : List ℚ) :
    (Distribution1D.new f).func_int =
      (List.scanl (fun c x => c + x / (f.length : ℚ)) 0 f).getD f.length 0 := rfl

theorem new_count (f : List ℚ) : (Distribution1D.new f).count = f.length := rfl

theorem new_cdf_of_ne (f : List ℚ) (h : (Distribution1D.new f).func_int ≠ 0) :
    (Distribution1D.new f).cdf =
      (List.scanl (fun c x => c + x / (f.length : ℚ)) 0 f).map
        (fun c => c / (Distribution1D.new f).func_int) := by
  rw [new_func_int] at h
  unfold Distribution1D.new
  simp only [if_neg h]

theorem new_cdf_length (f : List ℚ) :
    (Distribution1D.new f).cdf.length = f.length + 1 := by
  unfold Distribution1D.new
  dsimp only
  by_cases h : (List.scanl (fun c x => c + x / (f.length : ℚ)) 0 f).getD f.length 0 = 0
  · rw [if_pos h, List.length_map, List.length_range]
  · rw [if_neg h, List.length_map, List.length_scanl]

theorem new_cdf_getD_zero (f : List ℚ) (h : (Distribution1D.new f).func_int ≠ 0) :
    (Distribution1D.new f).cdf.getD 0 0 = 0 := by
  rw [new_cdf_of_ne f h, getD_map_of_lt _ _ _ (by rw [List.length_scanl]; omega)]
  have h0 : (List.scanl (fun c x => c + x / (f.length : ℚ)) 0 f).getD 0 0 = 0 := by
    rw [List.getD_eq_getElem?_getD, List.getElem?_scanl_zero]
    rfl
  rw [h0, zero_div]

theorem new_cdf_getD_top (f : List ℚ) (h : (Distribution1D.new f).func_int ≠ 0) :
    (Distribution1D.new f).cdf.getD f.length 0 = 1 := by
  rw [new_cdf_of_ne f h, getD_map_of_lt _ _ _ (by rw [List.length_scanl]; omega),
    ← new_func_int]
  exact div_self h

/-- C1: for every `Distribution1D` built by `Distribution1D::new` from a
non-empty function vector `f` with positive integral `func_int`, and every
sample `u ∈ [0,1)`: `sample_continuous` returns `x ∈ [0,1)` such that `u`
lies in the CDF segment `[cdf[⌊x·n⌋], cdf[⌊x·n⌋+1])` with `n = f.len()`,
the reported offset equals `⌊x·n⌋`, and the reported PDF equals
`f[⌊x·n⌋] / func_int`. -/
theorem C1_distribution1d_sample_continuous_round_trip (f : List ℚ) (u : ℚ)
    (hf : f ≠ []) (hpos : 0 < (Distribution1D.new f).func_int)
    (hu0 : 0 ≤ u) (hu1 : u < 1) :
    0 ≤ ((Distribution1D.new f).sample_continuous u).x ∧
    ((Distribution1D.new f).sample_continuous u).x < 1 ∧
    (((Distribution1D.new f).sample_continuous u).offset : ℤ) =
      ⌊((Distribution1D.new f).sample_continuous u).x * (f.length : ℚ)⌋ ∧
    (Distribution1D.new f).cdf.getD
      ((Distribution1D.new f).sample_continuous u).offset 0 ≤ u ∧
    u < (Distribution1D.new f).cdf.getD
      (((Distribution1D.new f).sample_continuous u).offset + 1) 0 ∧
    ((Distribution1D.new f).sample_continuous u).pdf =
      f.getD ((Distribution1D.new f).sample_continuous u).offset 0 /
        (Distribution1D.new f).func_int := by
  set d := Distribution1D.new f with hd
  have hcnt : 0 < d.count := by rw [hd, new_count]; exact List.length_pos.mpr hf
  have hlen : d.cdf.length = d.count + 1 := by rw [hd, new_cdf_length, new_count]
  have hc0 : d.cdf.getD 0 0 = 0 := new_cdf_getD_zero f (ne_of_gt hpos)
  have hc1 : d.cdf.getD d.count 0 = 1 := by
    rw [hd, new_count]
    exact new_cdf_getD_top f (ne_of_gt hpos)
  obtain ⟨r, hr1, hrn, hs, hlo, hhi⟩ :=
    sample_continuous_spec d u hlen hcnt hc0 hc1 hpos hu0 hu1
  rw [hs]
  have hseg : 0 < d.cdf.getD r 0 - d.cdf.getD (r - 1) 0 := by linarith
  set du := (u - d.cdf.getD (r - 1) 0) / (d.cdf.getD r 0 - d.cdf.getD (r - 1) 0)
    with hdu
  have hdu0 : 0 ≤ du := div_nonneg (by linarith) (le_of_lt hseg)
  have hdu1 : du < 1 := (div_lt_one hseg).mpr (by linarith)
  have hcq : (0 : ℚ) < (d.count : ℚ) := by exact_mod_cast hcnt
  have hcountf : d.count = f.length := by rw [hd, new_count]
  have hfloor : ⌊((r - 1 : ℕ) : ℚ) + du⌋ = ((r - 1 : ℕ) : ℤ) := by
    have : (((r - 1 : ℕ) : ℚ)) = (((r - 1 : ℕ) : ℤ) : ℚ) := by push_cast; ring
    rw [this, Int.floor_int_add, Int.floor_eq_zero_iff.mpr ⟨hdu0, hdu1⟩, add_zero]
  constructor
  · exact div_nonneg (by positivity) (le_of_lt hcq)
  constructor
  · rw [div_lt_one hcq]
    have hr1' : ((r - 1 : ℕ) : ℚ) + 1 ≤ (d.count : ℚ) := by
      have : r - 1 + 1 ≤ d.count := by omega
      exact_mod_cast this
    linarith
  constructor
  · rw [hcountf] at hcq ⊢
    rw [div_mul_cancel₀ _ (ne_of_gt hcq), hfloor]
  constructor
  · exact hlo
  constructor
  · have : r - 1 + 1 = r := by omega
    rw [this]
    exact hhi
  · rw [hd, new_func]

theorem C1_witness :
    (([1, 1, 1, 1] : List ℚ) ≠ [] ∧
      0 < (Distribution1D.new [1, 1, 1, 1]).func_int ∧
      0 ≤ (3 / 8 : ℚ) ∧ (3 / 8 : ℚ) < 1) ∧
    (0 ≤ ((Distribution1D.new [1, 1, 1, 1]).sample_continuous (3 / 8)).x ∧
      ((Distribution1D.new [1, 1, 1, 1]).sample_continuous (3 / 8)).x < 1 ∧
      (((Distribution1D.new [1, 1, 1, 1]).sample_continuous (3 / 8)).offset : ℤ) =
        ⌊((Distribution1D.new [1, 1, 1, 1]).sample_continuous (3 / 8)).x *
          (([1, 1, 1, 1] : List ℚ).length : ℚ)⌋ ∧
      (Distribution1D.new [1, 1, 1, 1]).cdf.getD
        ((Distribution1D.new [1, 1, 1, 1]).sample_continuous (3 / 8)).offset 0 ≤ 3 / 8 ∧
      (3 / 8 : ℚ) < (Distribution1D.new [1, 1, 1, 1]).cdf.getD
        (((Distribution1D.new [1, 1, 1, 1]).sample_continuous (3 / 8)).offset + 1) 0 ∧
      ((Distribution1D.new [1, 1, 1, 1]).sample_continuous (3 / 8)).pdf =
        ([1, 1, 1, 1] : List ℚ).getD
          ((Distribution1D.new [1, 1, 1, 1]).sample_continuous (3 / 8)).offset 0 /
          (Distribution1D.new [1, 1, 1, 1]).func_int) :=
  ⟨⟨by simp, by norm_num [Distribution1D.new], by norm_num, by norm_num⟩,
    C1_distribution1d_sample_continuous_round_trip [1, 1, 1, 1] (3 / 8)
      (by simp) (by norm_num [Distribution1D.new]) (by norm_num) (by norm_num)⟩

theorem getD_map_general {α β : Type} (g : α → β) (l : List α) (i : ℕ)
    (da : α) (db : β) (h : i < l.length) :
    (l.map g).getD i db = g (l.getD i da) := by
  simp [List.getD_eq_getElem?_getD, List.getElem?_map, List.getElem?_eq_getElem h]

theorem clampN_le_hi (v hi : ℕ) : clampN v 0 hi ≤ hi := by
  unfold clampN
  split
  · omega
  · split <;> omega

theorem scanl_getD_last (q a : ℚ) (f : List ℚ) :
    (List.scanl (fun c x => c + x / q) a f).getD f.length 0 = a + f.sum / q := by
  induction f generalizing a with
  | nil => simp [List.scanl]
  | cons x xs ih =>
    rw [List.scanl_cons, List.singleton_append, List.length_cons,
      List.getD_cons_succ, ih, List.sum_cons, add_div]
    ring

theorem new_func_int_eq_sum (f : List ℚ) :
    (Distribution1D.new f).func_int = f.sum / (f.length : ℚ) := by
  rw [new_func_int, scanl_getD_last, zero_add]

theorem list_sum_zero_of_nonneg (l : List ℚ) (hnn : ∀ x ∈ l, 0 ≤ x)
    (hsum : l.sum = 0) : ∀ x ∈ l, x = 0 := by
  induction l with
  | nil => simp
  | cons y ys ih =>
    rw [List.sum_cons] at hsum
    have hy : 0 ≤ y := hnn y (List.mem_cons_self y ys)
    have hys : 0 ≤ ys.sum := List.sum_nonneg (fun x hx => hnn x (List.mem_cons_of_mem y hx))
    have hy0 : y = 0 := by linarith
    have hs0 : ys.sum = 0 := by linarith
    intro x hx
    rcases List.mem_cons.mp hx with h | h
    · rw [h, hy0]
    · exact ih (fun z hz => hnn z (List.mem_cons_of_mem y hz)) hs0 x h

theorem conds_getD_eq (func : List ℚ) (nu nv : ℕ) (iv : ℕ) (hiv : iv < nv) :
    (Distribution2D.new func nu nv).p_conditional_v.getD iv ⟨[], [], 0⟩ =
      Distribution1D.new ((func.drop (iv * nu)).take nu) := by
  show ((List.range nv).map
      (fun v => Distribution1D.new ((func.drop (v * nu)).take nu))).getD iv _ = _
  rw [getD_map_general _ _ _ 0 _ (by rw [List.length_range]; exact hiv)]
  congr 2
  simp [List.getD_eq_getElem?_getD, List.getElem?_range hiv]

theorem row_count_eq (func : List ℚ) (nu nv : ℕ) (iv : ℕ) (hiv : iv < nv)
    (hlen : func.length = nu * nv) :
    ((Distribution2D.new func nu nv).p_conditional_v.getD iv ⟨[], [], 0⟩).count = nu := by
  rw [conds_getD_eq func nu nv iv hiv, new_count, List.length_take, List.length_drop, hlen]
  have h2 : iv * nu + nu ≤ nu * nv := by
    calc iv * nu + nu = (iv + 1) * nu := by ring
    _ ≤ nv * nu := Nat.mul_le_mul_right nu (Nat.succ_le_of_lt hiv)
    _ = nu * nv := Nat.mul_comm nv nu
  omega

theorem marginal_count_eq (func : List ℚ) (nu nv : ℕ) :
    (Distribution2D.new func nu nv).p_marginal.count = nv := by
  show (Distribution1D.new (((List.range nv).map
      (fun v => Distribution1D.new ((func.drop (v * nu)).take nu))).map
        (fun d => d.func_int))).count = nv
  rw [new_count, List.length_map, List.length_map, List.length_range]

theorem marginal_func_getD (func : List ℚ) (nu nv : ℕ) (iv : ℕ) (hiv : iv < nv) :
    (Distribution2D.new func nu nv).p_marginal.func.getD iv 0 =
      ((Distribution2D.new func nu nv).p_conditional_v.getD iv ⟨[], [], 0⟩).func_int := by
  show (Distribution1D.new (((List.range nv).map
      (fun v => Distribution1D.new ((func.drop (v * nu)).take nu))).map
        (fun d => d.func_int))).func.getD iv 0 = _
  rw [new_func, getD_map_general _ _ _ ⟨[], [], 0⟩ 0
    (by rw [List.length_map, List.length_range]; exact hiv)]
  rfl

/-- C5: for every `Distribution2D` built by `Distribution2D::new(func, nu,
nv)` from a (componentwise nonnegative) grid of `nu * nv` function values
with positive marginal integral, and every `(u, v) ∈ [0,1)²`, the single
quotient computed by `Distribution2D::pdf` equals the product of the
marginal distribution's PDF at `v` and the conditional row distribution's
PDF at `u` — the cancellation works because the marginal's function values
are exactly the rows' `func_int` values. -/
theorem C5_distribution2d_pdf_marginal_law (func : List ℚ) (nu nv : ℕ)
    (hnu : 0 < nu) (hnv : 0 < nv) (hlen : func.length = nu * nv)
    (hnonneg : ∀ x ∈ func, 0 ≤ x)
    (hpos : 0 < (Distribution2D.new func nu nv).p_marginal.func_int)
    (pu pv : ℚ) (hu0 : 0 ≤ pu) (hu1 : pu < 1) (hv0 : 0 ≤ pv) (hv1 : pv < 1) :
    (Distribution2D.new func nu nv).pdf pu pv =
      (Distribution2D.new func nu nv).p_marginal.pdfAt pv *
        ((Distribution2D.new func nu nv).p_conditional_v.getD
          (cellIndex pv (Distribution2D.new func nu nv).p_marginal.count)
          ⟨[], [], 0⟩).pdfAt pu := by
  set D := Distribution2D.new func nu nv with hD
  set iv := cellIndex pv D.p_marginal.count with hivdef
  have hiv : iv < nv := by
    have h1 : iv ≤ nv - 1 := by
      rw [hivdef, hD, marginal_count_eq]
      exact clampN_le_hi _ _
    omega
  set row := D.p_conditional_v.getD iv ⟨[], [], 0⟩ with hrow
  have hrowc : row.count = nu := by
    rw [hrow, hD]
    exact row_count_eq func nu nv iv hiv hlen
  have hrow0c : (D.p_conditional_v.getD 0 ⟨[], [], 0⟩).count = nu := by
    rw [hD]
    exact row_count_eq func nu nv 0 hnv hlen
  set iu := cellIndex pu nu with hiudef
  have hmargf : D.p_marginal.func.getD iv 0 = row.func_int := by
    rw [hrow, hD]
    exact marginal_func_getD func nu nv iv hiv
  have hslice_nn : ∀ x ∈ (func.drop (iv * nu)).take nu, 0 ≤ x := by
    intro x hx
    exact hnonneg x (List.drop_subset _ _ (List.take_subset _ _ hx))
  have hrownn : ∀ x ∈ row.func, 0 ≤ x := by
    rw [hrow, hD, conds_getD_eq func nu nv iv hiv, new_func]
    exact hslice_nn
  have hrowint_nn : 0 ≤ row.func_int := by
    rw [hrow, hD, conds_getD_eq func nu nv iv hiv, new_func_int_eq_sum]
    exact div_nonneg (List.sum_nonneg hslice_nn) (by positivity)
  have hpdf : D.pdf pu pv = row.func.getD iu 0 / D.p_marginal.func_int := by
    show (D.p_conditional_v.getD (cellIndex pv D.p_marginal.count) ⟨[], [], 0⟩).func.getD
        (cellIndex pu (D.p_conditional_v.getD 0 ⟨[], [], 0⟩).count) 0 /
          D.p_marginal.func_int = _
    rw [hrow0c, ← hivdef, ← hrow, ← hiudef]
  rw [hpdf]
  unfold Distribution1D.pdfAt
  rw [if_pos hpos, hmargf, hrowc, ← hiudef]
  rcases lt_or_eq_of_le hrowint_nn with hri | hri
  · rw [if_pos hri]
    field_simp
    ring
  · rw [if_neg (by rw [← hri]; exact lt_irrefl 0)]
    have hallz : ∀ x ∈ row.func, x = 0 := by
      apply list_sum_zero_of_nonneg row.func hrownn
      have hsum : row.func_int = row.func.sum / (row.func.length : ℚ) := by
        rw [hrow, hD, conds_getD_eq func nu nv iv hiv, new_func_int_eq_sum, new_func]
      have hlenrow : (0 : ℚ) < (row.func.length : ℚ) := by
        have : row.func.length = nu := hrowc
        rw [this]
        exact_mod_cast hnu
      rw [hsum] at hri
      field_simp at hri
      linarith [hri]
    have hgetd : row.func.getD iu 0 = 0 := by
      by_cases hiu : iu < row.func.length
      · rw [List.getD_eq_getElem?_getD, List.getElem?_eq_getElem hiu]
        exact hallz _ (List.getElem_mem hiu)
      · rw [List.getD_eq_getElem?_getD, List.getElem?_eq_none (le_of_not_lt hiu)]
        rfl
    rw [hgetd, zero_div, mul_zero]

theorem C5_witness :
    (0 < (2 : ℕ) ∧ ([1, 2, 3, 4] : List ℚ).length = 2 * 2 ∧
      (∀ x ∈ ([1, 2, 3, 4] : List ℚ), 0 ≤ x) ∧
      0 < (Distribution2D.new [1, 2, 3, 4] 2 2).p_marginal.func_int) ∧
    (Distribution2D.new [1, 2, 3, 4] 2 2).pdf (1 / 4) (1 / 4) =
      (Distribution2D.new [1, 2, 3, 4] 2 2).p_marginal.pdfAt (1 / 4) *
        ((Distribution2D.new [1, 2, 3, 4] 2 2).p_conditional_v.getD
          (cellIndex (1 / 4) (Distribution2D.new [1, 2, 3, 4] 2 2).p_marginal.count)
          ⟨[], [], 0⟩).pdfAt (1 / 4) :=
  ⟨⟨by norm_num, by norm_num, by norm_num,
      by norm_num [Distribution2D.new, Distribution1D.new]⟩,
    C5_distribution2d_pdf_marginal_law [1, 2, 3, 4] 2 2 (by norm_num) (by norm_num)
      (by norm_num) (by norm_num)
      (by norm_num [Distribution2D.new, Distribution1D.new])
      (1 / 4) (1 / 4) (by norm_num) (by norm_num) (by norm_num) (by norm_num)⟩

end Sampling

namespace BVH

theorem flatten_length (t : BuildTree) : ∀ off, (flatten_bvh_tree t off).1.length = t.size := by
  induction t with
  | leaf b fpo n => intro off; rfl
  | interior b ax c1 c2 ih1 ih2 =>
    intro off
    show (⟨b, _, 0, ax⟩ :: ((flatten_bvh_tree c1 (off + 1)).1 ++ _) :
      List LinearBVHNode).length = _
    rw [List.length_cons, List.length_append, ih1, ih2]
    show c1.size + c2.size + 1 = 1 + c1.size + c2.size
    omega

theorem flatten_snd (t : BuildTree) : ∀ off, (flatten_bvh_tree t off).2 = off + t.size := by
  induction t with
  | leaf b fpo n => intro off; rfl
  | interior b ax c1 c2 ih1 ih2 =>
    intro off
    show (flatten_bvh_tree c2 (flatten_bvh_tree c1 (off + 1)).2).2 = _
    rw [ih2, ih1]
    show off + 1 + c1.size + c2.size = off + (1 + c1.size + c2.size)
    omega

theorem getD_append_len {α : Type} (P R : List α) (k : ℕ) (d : α) :
    (P ++ R).getD (P.length + k) d = R.getD k d := by
  rw [List.getD_eq_getElem?_getD, List.getD_eq_getElem?_getD,
    List.getElem?_append_right (by omega), Nat.add_sub_cancel_left]

theorem layoutOk_flatten (t : BuildTree) (hwf : t.wellFormed = true) :
    ∀ (P S : List LinearBVHNode) (off : ℕ), P.length = off →
      layoutOk (P ++ (flatten_bvh_tree t off).1 ++ S) off t = true := by
  induction t with
  | leaf b fpo n =>
    intro P S off hP
    have hn : 0 < n := by simpa [BuildTree.wellFormed] using hwf
    show layoutOk (P ++ [⟨b, fpo, n, 0⟩] ++ S) off (.leaf b fpo n) = true
    unfold layoutOk
    have hget : (P ++ [(⟨b, fpo, n, 0⟩ : LinearBVHNode)] ++ S).getD off ⟨none, 0, 0, 0⟩ =
        ⟨b, fpo, n, 0⟩ := by
      rw [List.append_assoc, ← hP]
      have := getD_append_len P ([(⟨b, fpo, n, 0⟩ : LinearBVHNode)] ++ S) 0 ⟨none, 0, 0, 0⟩
      simpa using this
    rw [hget]
    simp [hn]
  | interior b ax c1 c2 ih1 ih2 =>
    intro P S off hP
    have hwf1 : c1.wellFormed = true := by
      have := hwf
      unfold BuildTree.wellFormed at this
      exact (Bool.and_eq_true _ _ |>.mp this).1
    have hwf2 : c2.wellFormed = true := by
      have := hwf
      unfold BuildTree.wellFormed at this
      exact (Bool.and_eq_true _ _ |>.mp this).2
    set l1 := (flatten_bvh_tree c1 (off + 1)).1 with hl1
    set o1 := (flatten_bvh_tree c1 (off + 1)).2 with ho1
    set l2 := (flatten_bvh_tree c2 o1).1 with hl2
    have ho1v : o1 = off + 1 + c1.size := by rw [ho1, flatten_snd]
    have hl1len : l1.length = c1.size := by rw [hl1, flatten_length]
    have hflat : (flatten_bvh_tree (.interior b ax c1 c2) off).1 =
        ⟨b, o1, 0, ax⟩ :: (l1 ++ l2) := rfl
    rw [hflat]
    have hnode : (P ++ (⟨b, o1, 0, ax⟩ :: (l1 ++ l2)) ++ S).getD off ⟨none, 0, 0, 0⟩ =
        ⟨b, o1, 0, ax⟩ := by
      rw [List.append_assoc, ← hP]
      have := getD_append_len P ((⟨b, o1, 0, ax⟩ : LinearBVHNode) :: (l1 ++ l2) ++ S) 0
        ⟨none, 0, 0, 0⟩
      simpa using this
    unfold layoutOk
    rw [hnode]
    have heq1 : P ++ (⟨b, o1, 0, ax⟩ :: (l1 ++ l2)) ++ S =
        (P ++ [⟨b, o1, 0, ax⟩]) ++ l1 ++ (l2 ++ S) := by
      simp [List.append_assoc]
    have heq2 : P ++ (⟨b, o1, 0, ax⟩ :: (l1 ++ l2)) ++ S =
        (P ++ ⟨b, o1, 0, ax⟩ :: l1) ++ l2 ++ S := by
      simp [List.append_assoc]
    have h1 : layoutOk (P ++ (⟨b, o1, 0, ax⟩ :: (l1 ++ l2)) ++ S) (off + 1) c1 = true := by
      rw [heq1, hl1]
      exact ih1 hwf1 (P ++ [⟨b, o1, 0, ax⟩]) (l2 ++ S) (off + 1)
        (by simp [hP])
    have h2 : layoutOk (P ++ (⟨b, o1, 0, ax⟩ :: (l1 ++ l2)) ++ S) o1 c2 = true := by
      rw [heq2, hl2]
      exact ih2 hwf2 (P ++ ⟨b, o1, 0, ax⟩ :: l1) S o1
        (by rw [List.length_append, List.length_cons, hl1len, hP]; omega)
    rw [h1, h2, ho1v]
    simp

/-- C6: for every build tree satisfying the build-node invariant (leaf iff
`n_primitives > 0`, interior nodes have two children), `flatten_bvh_tree`
produces a depth-first array of exactly `size t` nodes in which every
interior node written at index `i` has its left child at index `i + 1` and
its right child at index `nodes[i].offset`, and every leaf node carries
`n_primitives > 0` with `offset` equal to the leaf's
`first_prim_offset`. -/
theorem C6_flatten_bvh_tree_layout (t : BuildTree) (hwf : t.wellFormed = true) :
    (flatten_bvh_tree t 0).1.length = t.size ∧
    (flatten_bvh_tree t 0).2 = t.size ∧
    layoutOk (flatten_bvh_tree t 0).1 0 t = true := by
  refine ⟨flatten_length t 0, by rw [flatten_snd]; omega, ?_⟩
  have := layoutOk_flatten t hwf [] [] 0 rfl
  simpa using this

theorem C6_witness :
    ((BuildTree.interior none 2 (.leaf none 0 1)
        (.interior none 0 (.leaf none 1 2) (.leaf none 3 1))).wellFormed = true) ∧
    ((flatten_bvh_tree (BuildTree.interior none 2 (.leaf none 0 1)
        (.interior none 0 (.leaf none 1 2) (.leaf none 3 1))) 0).1.length =
      (BuildTree.interior none 2 (.leaf none 0 1)
        (.interior none 0 (.leaf none 1 2) (.leaf none 3 1))).size ∧
     (flatten_bvh_tree (BuildTree.interior none 2 (.leaf none 0 1)
        (.interior none 0 (.leaf none 1 2) (.leaf none 3 1))) 0).2 =
      (BuildTree.interior none 2 (.leaf none 0 1)
        (.interior none 0 (.leaf none 1 2) (.leaf none 3 1))).size ∧
     layoutOk (flatten_bvh_tree (BuildTree.interior none 2 (.leaf none 0 1)
        (.interior none 0 (.leaf none 1 2) (.leaf none 3 1))) 0).1 0
      (BuildTree.interior none 2 (.leaf none 0 1)
        (.interior none 0 (.leaf none 1 2) (.leaf none 3 1))) = true) :=
  ⟨by decide, C6_flatten_bvh_tree_layout _ (by decide)⟩

end BVH

namespace BVH

theorem minFold_spec (tl : List ℚ) :
    ∀ (s : ℕ) (acc : ℚ × ℕ),
      ((tl.enumFrom s).foldl (fun a ic => if ic.2 < a.1 then (ic.2, ic.1) else a) acc = acc ∧
        ∀ j, j < tl.length → acc.1 ≤ tl.getD j 0) ∨
      (∃ j, j < tl.length ∧
        (tl.enumFrom s).foldl (fun a ic => if ic.2 < a.1 then (ic.2, ic.1) else a) acc =
          (tl.getD j 0, s + j) ∧
        tl.getD j 0 < acc.1 ∧
        (∀ i, i < tl.length → tl.getD j 0 ≤ tl.getD i 0) ∧
        (∀ i, i < j → tl.getD j 0 < tl.getD i 0)) := by
  induction tl with
  | nil =>
    intro s acc
    left
    exact ⟨rfl, by intro j hj; simp at hj⟩
  | cons c rest ih =>
    intro s acc
    have hunfold : (c :: rest).enumFrom s = (s, c) :: rest.enumFrom (s + 1) := rfl
    rw [hunfold, List.foldl_cons]
    by_cases hc : c < acc.1
    · rw [show (if (s, c).2 < acc.1 then ((s, c).2, (s, c).1) else acc) = (c, s) by
        simp [hc]]
      rcases ih (s + 1) (c, s) with ⟨hres, hall⟩ | ⟨j, hj, hres, hlt, hall, hfirst⟩
      · right
        refine ⟨0, by simp, ?_, by simpa using hc, ?_, by omega⟩
        · rw [hres]
          simp
        · intro i hi
          cases i with
          | zero => simp
          | succ i =>
            rw [List.getD_cons_zero, List.getD_cons_succ]
            have := hall i (by simpa using hi)
            simpa using this
      · right
        refine ⟨j + 1, by simpa using hj, ?_, ?_, ?_, ?_⟩
        · rw [List.getD_cons_succ, hres]
          have : s + (j + 1) = s + 1 + j := by omega
          rw [this]
        · rw [List.getD_cons_succ]
          exact lt_trans hlt hc
        · intro i hi
          cases i with
          | zero =>
            rw [List.getD_cons_succ, List.getD_cons_zero]
            exact le_of_lt hlt
          | succ i =>
            rw [List.getD_cons_succ, List.getD_cons_succ]
            exact hall i (by simpa using hi)
        · intro i hi
          cases i with
          | zero =>
            rw [List.getD_cons_succ, List.getD_cons_zero]
            exact hlt
          | succ i =>
            rw [List.getD_cons_succ, List.getD_cons_succ]
            exact hfirst i (by omega)
    · rw [show (if (s, c).2 < acc.1 then ((s, c).2, (s, c).1) else acc) = acc by
        simp [hc]]
      rcases ih (s + 1) acc with ⟨hres, hall⟩ | ⟨j, hj, hres, hlt, hall, hfirst⟩
      · left
        refine ⟨hres, ?_⟩
        intro i hi
        cases i with
        | zero =>
          rw [List.getD_cons_zero]
          exact not_lt.mp hc
        | succ i =>
          rw [List.getD_cons_succ]
          exact hall i (by simpa using hi)
      · right
        refine ⟨j + 1, by simpa using hj, ?_, ?_, ?_, ?_⟩
        · rw [List.getD_cons_succ, hres]
          have : s + (j + 1) = s + 1 + j := by omega
          rw [this]
        · rw [List.getD_cons_succ]
          exact hlt
        · intro i hi
          cases i with
          | zero =>
            rw [List.getD_cons_succ, List.getD_cons_zero]
            exact le_of_lt (lt_of_lt_of_le hlt (not_lt.mp hc))
          | succ i =>
            rw [List.getD_cons_succ, List.getD_cons_succ]
            exact hall i (by simpa using hi)
        · intro i hi
          cases i with
          | zero =>
            rw [List.getD_cons_succ, List.getD_cons_zero]
            exact lt_of_lt_of_le hlt (not_lt.mp hc)
          | succ i =>
            rw [List.getD_cons_succ, List.getD_cons_succ]
            exact hfirst i (by omega)

theorem minCostScan_spec (costs : List ℚ) (hne : costs ≠ []) :
    (minCostScan costs).2 < costs.length ∧
    (minCostScan costs).1 = costs.getD (minCostScan costs).2 0 ∧
    (∀ i, i < costs.length → (minCostScan costs).1 ≤ costs.getD i 0) ∧
    (∀ j, j < (minCostScan costs).2 → (minCostScan costs).1 < costs.getD j 0) := by
  obtain ⟨c, tl, rfl⟩ : ∃ c tl, costs = c :: tl := by
    cases costs with
    | nil => exact absurd rfl hne
    | cons c tl => exact ⟨c, tl, rfl⟩
  have hstep : minCostScan (c :: tl) =
      (tl.enumFrom 1).foldl (fun a ic => if ic.2 < a.1 then (ic.2, ic.1) else a)
        (c, 0) := by
    unfold minCostScan
    have h1 : (c :: tl).enum = (0, c) :: tl.enumFrom 1 := rfl
    rw [h1, List.foldl_cons, List.getD_cons_zero]
    congr 1
    simp
  rw [hstep]
  rcases minFold_spec tl 1 (c, 0) with ⟨hres, hall⟩ | ⟨j, hj, hres, hlt, hall, hfirst⟩
  · rw [hres]
    refine ⟨by simp, by simp, ?_, by intro j hj; omega⟩
    intro i hi
    cases i with
    | zero => simp
    | succ i =>
      rw [List.getD_cons_succ]
      exact hall i (by simpa using hi)
  · rw [hres]
    have h1j : 1 + j = j + 1 := by omega
    refine ⟨by simp only [List.length_cons]; omega, ?_, ?_, ?_⟩
    · show tl.getD j 0 = (c :: tl).getD (1 + j) 0
      rw [h1j, List.getD_cons_succ]
    · intro i hi
      cases i with
      | zero =>
        rw [List.getD_cons_zero]
        exact le_of_lt hlt
      | succ i =>
        rw [List.getD_cons_succ]
        exact hall i (by simpa using hi)
    · intro i hi
      cases i with
      | zero =>
        rw [List.getD_cons_zero]
        exact hlt
      | succ i =>
        rw [List.getD_cons_succ]
        exact hfirst i (by simp at hi; omega)

end BVH

namespace BVH

theorem costs_getD (cbb : Bounds3) (dim : ℕ) (prims : List PrimInfo)
    (bounds : Option Bounds3) (i : ℕ) (hi : i < 11) :
    ((List.range 11).map (sahCost cbb dim prims bounds)).getD i 0 =
      sahCost cbb dim prims bounds i := by
  rw [Sampling.getD_map_general _ _ _ 0 _ (by rw [List.length_range]; exact hi)]
  congr 1
  simp [List.getD_eq_getElem?_getD, List.getElem?_range hi]

/-- C4: in `BVHAccel::recursive_build` with the SAH split method, for
every primitive range with `n > 2` primitives and a non-degenerate
centroid bound on the chosen axis, the minimum-cost scan selects the first
of the 11 bucket splits attaining the minimal SAH cost
`1 + (count_L·area_L + count_R·area_R) / area_parent`, the primitives are
partitioned (order-preservingly, by bucket index at most the chosen split
bucket) exactly when `n > max_prims_in_node` or that minimum cost is
strictly below the leaf cost `n` — and both halves are then recursed —
while otherwise a single leaf holding all `n` primitives is emitted. -/
theorem C4_recursive_build_sah_split (maxPrims : ℕ) (prims : List PrimInfo)
    (cbb : Bounds3) (h2 : 2 < prims.length)
    (hcb : centroidBoundsOf prims = some cbb)
    (hnd : ¬ cbb.pMax.comp (maximumExtent cbb) = cbb.pMin.comp (maximumExtent cbb)) :
    ((minCostScan ((List.range 11).map
        (sahCost cbb (maximumExtent cbb) prims (unionBoundsOf prims)))).2 < 11 ∧
      (minCostScan ((List.range 11).map
        (sahCost cbb (maximumExtent cbb) prims (unionBoundsOf prims)))).1 =
        sahCost cbb (maximumExtent cbb) prims (unionBoundsOf prims)
          (minCostScan ((List.range 11).map
            (sahCost cbb (maximumExtent cbb) prims (unionBoundsOf prims)))).2 ∧
      (∀ i, i < 11 →
        (minCostScan ((List.range 11).map
          (sahCost cbb (maximumExtent cbb) prims (unionBoundsOf prims)))).1 ≤
          sahCost cbb (maximumExtent cbb) prims (unionBoundsOf prims) i) ∧
      (∀ j, j < (minCostScan ((List.range 11).map
          (sahCost cbb (maximumExtent cbb) prims (unionBoundsOf prims)))).2 →
        (minCostScan ((List.range 11).map
          (sahCost cbb (maximumExtent cbb) prims (unionBoundsOf prims)))).1 <
          sahCost cbb (maximumExtent cbb) prims (unionBoundsOf prims) j)) ∧
    (prims.partition (fun p => bucketOf cbb (maximumExtent cbb) p ≤
        (minCostScan ((List.range 11).map
          (sahCost cbb (maximumExtent cbb) prims (unionBoundsOf prims)))).2) =
      (prims.filter (fun p => bucketOf cbb (maximumExtent cbb) p ≤
        (minCostScan ((List.range 11).map
          (sahCost cbb (maximumExtent cbb) prims (unionBoundsOf prims)))).2),
       prims.filter (fun p => ¬ (bucketOf cbb (maximumExtent cbb) p ≤
        (minCostScan ((List.range 11).map
          (sahCost cbb (maximumExtent cbb) prims (unionBoundsOf prims)))).2)))) ∧
    recursiveBuildStep maxPrims prims =
      (if maxPrims < prims.length ∨
          (minCostScan ((List.range 11).map
            (sahCost cbb (maximumExtent cbb) prims (unionBoundsOf prims)))).1 <
            (prims.length : ℚ) then
        StepResult.split
          (prims.partition (fun p => bucketOf cbb (maximumExtent cbb) p ≤
            (minCostScan ((List.range 11).map
              (sahCost cbb (maximumExtent cbb) prims (unionBoundsOf prims)))).2)).1
          (prims.partition (fun p => bucketOf cbb (maximumExtent cbb) p ≤
            (minCostScan ((List.range 11).map
              (sahCost cbb (maximumExtent cbb) prims (unionBoundsOf prims)))).2)).2
          (maximumExtent cbb)
      else StepResult.leafAll prims) := by
  set dim := maximumExtent cbb with hdim
  set bounds := unionBoundsOf prims with hbounds
  set costs := (List.range 11).map (sahCost cbb dim prims bounds) with hcosts
  have hlen : costs.length = 11 := by rw [hcosts, List.length_map, List.length_range]
  have hne : costs ≠ [] := by
    intro h
    rw [h] at hlen
    simp at hlen
  obtain ⟨hk, hval, hmin, hfirst⟩ := minCostScan_spec costs hne
  rw [hlen] at hk
  refine ⟨⟨hk, ?_, ?_, ?_⟩, ?_, ?_⟩
  · rw [hval, hcosts, costs_getD cbb dim prims bounds _ hk]
  · intro i hi
    have := hmin i (by rw [hlen]; exact hi)
    rwa [hcosts, costs_getD cbb dim prims bounds i hi] at this
  · intro j hj
    have := hfirst j hj
    rwa [hcosts, costs_getD cbb dim prims bounds j (lt_trans hj hk)] at this
  · rw [List.partition_eq_filter_filter]
    refine Prod.ext ?_ ?_
    · rfl
    · show List.filter _ prims = List.filter _ prims
      apply List.filter_congr
      intro a _
      rw [Function.comp_apply, decide_not]
  · unfold recursiveBuildStep
    rw [if_neg (by omega), hcb]
    dsimp only
    rw [if_neg hnd, if_neg (by omega)]

end BVH

namespace BVH

theorem C4_witness :
    (2 < ([⟨0, ⟨⟨0,0,0⟩,⟨2,2,2⟩⟩, ⟨1,1,1⟩⟩,
           ⟨1, ⟨⟨4,0,0⟩,⟨6,2,2⟩⟩, ⟨5,1,1⟩⟩,
           ⟨2, ⟨⟨40,0,0⟩,⟨42,2,2⟩⟩, ⟨41,1,1⟩⟩] : List PrimInfo).length ∧
      centroidBoundsOf
        [⟨0, ⟨⟨0,0,0⟩,⟨2,2,2⟩⟩, ⟨1,1,1⟩⟩,
         ⟨1, ⟨⟨4,0,0⟩,⟨6,2,2⟩⟩, ⟨5,1,1⟩⟩,
         ⟨2, ⟨⟨40,0,0⟩,⟨42,2,2⟩⟩, ⟨41,1,1⟩⟩] = some ⟨⟨1,1,1⟩,⟨41,1,1⟩⟩ ∧
      ¬ (Bounds3.mk ⟨1,1,1⟩ ⟨41,1,1⟩).pMax.comp
          (maximumExtent ⟨⟨1,1,1⟩,⟨41,1,1⟩⟩) =
        (Bounds3.mk ⟨1,1,1⟩ ⟨41,1,1⟩).pMin.comp
          (maximumExtent ⟨⟨1,1,1⟩,⟨41,1,1⟩⟩)) ∧
    recursiveBuildStep 4
      [⟨0, ⟨⟨0,0,0⟩,⟨2,2,2⟩⟩, ⟨1,1,1⟩⟩,
       ⟨1, ⟨⟨4,0,0⟩,⟨6,2,2⟩⟩, ⟨5,1,1⟩⟩,
       ⟨2, ⟨⟨40,0,0⟩,⟨42,2,2⟩⟩, ⟨41,1,1⟩⟩] =
      (if 4 < ([⟨0, ⟨⟨0,0,0⟩,⟨2,2,2⟩⟩, ⟨1,1,1⟩⟩,
                ⟨1, ⟨⟨4,0,0⟩,⟨6,2,2⟩⟩, ⟨5,1,1⟩⟩,
                ⟨2, ⟨⟨40,0,0⟩,⟨42,2,2⟩⟩, ⟨41,1,1⟩⟩] : List PrimInfo).length ∨
          (minCostScan ((List.range 11).map
            (sahCost ⟨⟨1,1,1⟩,⟨41,1,1⟩⟩ (maximumExtent ⟨⟨1,1,1⟩,⟨41,1,1⟩⟩)
              [⟨0, ⟨⟨0,0,0⟩,⟨2,2,2⟩⟩, ⟨1,1,1⟩⟩,
               ⟨1, ⟨⟨4,0,0⟩,⟨6,2,2⟩⟩, ⟨5,1,1⟩⟩,
               ⟨2, ⟨⟨40,0,0⟩,⟨42,2,2⟩⟩, ⟨41,1,1⟩⟩]
              (unionBoundsOf
                [⟨0, ⟨⟨0,0,0⟩,⟨2,2,2⟩⟩, ⟨1,1,1⟩⟩,
                 ⟨1, ⟨⟨4,0,0⟩,⟨6,2,2⟩⟩, ⟨5,1,1⟩⟩,
                 ⟨2, ⟨⟨40,0,0⟩,⟨42,2,2⟩⟩, ⟨41,1,1⟩⟩])))).1 <
            (([⟨0, ⟨⟨0,0,0⟩,⟨2,2,2⟩⟩, ⟨1,1,1⟩⟩,
               ⟨1, ⟨⟨4,0,0⟩,⟨6,2,2⟩⟩, ⟨5,1,1⟩⟩,
               ⟨2, ⟨⟨40,0,0⟩,⟨42,2,2⟩⟩, ⟨41,1,1⟩⟩] : List PrimInfo).length : ℚ) then
        StepResult.split
          (([⟨0, ⟨⟨0,0,0⟩,⟨2,2,2⟩⟩, ⟨1,1,1⟩⟩,
             ⟨1, ⟨⟨4,0,0⟩,⟨6,2,2⟩⟩, ⟨5,1,1⟩⟩,
             ⟨2, ⟨⟨40,0,0⟩,⟨42,2,2⟩⟩, ⟨41,1,1⟩⟩] : List PrimInfo).partition
            (fun p => bucketOf ⟨⟨1,1,1⟩,⟨41,1,1⟩⟩ (maximumExtent ⟨⟨1,1,1⟩,⟨41,1,1⟩⟩) p ≤
              (minCostScan ((List.range 11).map
                (sahCost ⟨⟨1,1,1⟩,⟨41,1,1⟩⟩ (maximumExtent ⟨⟨1,1,1⟩,⟨41,1,1⟩⟩)
                  [⟨0, ⟨⟨0,0,0⟩,⟨2,2,2⟩⟩, ⟨1,1,1⟩⟩,
                   ⟨1, ⟨⟨4,0,0⟩,⟨6,2,2⟩⟩, ⟨5,1,1⟩⟩,
                   ⟨2, ⟨⟨40,0,0⟩,⟨42,2,2⟩⟩, ⟨41,1,1⟩⟩]
                  (unionBoundsOf
                    [⟨0, ⟨⟨0,0,0⟩,⟨2,2,2⟩⟩, ⟨1,1,1⟩⟩,
                     ⟨1, ⟨⟨4,0,0⟩,⟨6,2,2⟩⟩, ⟨5,1,1⟩⟩,
                     ⟨2, ⟨⟨40,0,0⟩,⟨42,2,2⟩⟩, ⟨41,1,1⟩⟩])))).2)).1
          (([⟨0, ⟨⟨0,0,0⟩,⟨2,2,2⟩⟩, ⟨1,1,1⟩⟩,
             ⟨1, ⟨⟨4,0,0⟩,⟨6,2,2⟩⟩, ⟨5,1,1⟩⟩,
             ⟨2, ⟨⟨40,0,0⟩,⟨42,2,2⟩⟩, ⟨41,1,1⟩⟩] : List PrimInfo).partition
            (fun p => bucketOf ⟨⟨1,1,1⟩,⟨41,1,1⟩⟩ (maximumExtent ⟨⟨1,1,1⟩,⟨41,1,1⟩⟩) p ≤
              (minCostScan ((List.range 11).map
                (sahCost ⟨⟨1,1,1⟩,⟨41,1,1⟩⟩ (maximumExtent ⟨⟨1,1,1⟩,⟨41,1,1⟩⟩)
                  [⟨0, ⟨⟨0,0,0⟩,⟨2,2,2⟩⟩, ⟨1,1,1⟩⟩,
                   ⟨1, ⟨⟨4,0,0⟩,⟨6,2,2⟩⟩, ⟨5,1,1⟩⟩,
                   ⟨2, ⟨⟨40,0,0⟩,⟨42,2,2⟩⟩, ⟨41,1,1⟩⟩]
                  (unionBoundsOf
                    [⟨0, ⟨⟨0,0,0⟩,⟨2,2,2⟩⟩, ⟨1,1,1⟩⟩,
                     ⟨1, ⟨⟨4,0,0⟩,⟨6,2,2⟩⟩, ⟨5,1,1⟩⟩,
                     ⟨2, ⟨⟨40,0,0⟩,⟨42,2,2⟩⟩, ⟨41,1,1⟩⟩])))).2)).2
          (maximumExtent ⟨⟨1,1,1⟩,⟨41,1,1⟩⟩)
      else StepResult.leafAll
        [⟨0, ⟨⟨0,0,0⟩,⟨2,2,2⟩⟩, ⟨1,1,1⟩⟩,
         ⟨1, ⟨⟨4,0,0⟩,⟨6,2,2⟩⟩, ⟨5,1,1⟩⟩,
         ⟨2, ⟨⟨40,0,0⟩,⟨42,2,2⟩⟩, ⟨41,1,1⟩⟩]) :=
  ⟨⟨by norm_num, by decide, by norm_num [maximumExtent, Vec3.comp]⟩,
    (C4_recursive_build_sah_split 4
      [⟨0, ⟨⟨0,0,0⟩,⟨2,2,2⟩⟩, ⟨1,1,1⟩⟩,
       ⟨1, ⟨⟨4,0,0⟩,⟨6,2,2⟩⟩, ⟨5,1,1⟩⟩,
       ⟨2, ⟨⟨40,0,0⟩,⟨42,2,2⟩⟩, ⟨41,1,1⟩⟩] ⟨⟨1,1,1⟩,⟨41,1,1⟩⟩
      (by norm_num) (by decide) (by norm_num [maximumExtent, Vec3.comp])).2.2⟩

end BVH

namespace Refl

open RG

theorem canonical_world_to_local (wo : Vec3) (eta : ℝ) (l : List Bxdf) :
    (Bsdf.mk eta ⟨0, 0, 1⟩ ⟨0, 0, 1⟩ ⟨1, 0, 0⟩ ⟨0, 1, 0⟩ l).world_to_local wo = wo := by
  unfold Bsdf.world_to_local
  cases wo with
  | mk x y z =>
    show (⟨_, _, _⟩ : Vec3) = _
    unfold dot
    norm_num

/-- C10: for every `wo` and `wi` lying in the same hemisphere of the
shading frame, `SpecularTransmission::pdf` and `FresnelSpecular::pdf` both
return `|cos θ_i| / π` — a nonzero value — rather than `0`, even though
both lobes carry the Specular flag and their `f` is identically black;
consequently these nonzero pdfs enter the averages computed by
`Bsdf::pdf` (shown here for a `Bsdf` holding one such lobe in a canonical
shading frame: its `pdf` equals `|cos θ_i| / π ≠ 0`) and the combined pdf
of `Bsdf::sample_f` whenever such a lobe matches the query flags. -/
theorem C10_specular_transmission_pdf_nonzero (wo wi : Vec3) (r t : Spectrum)
    (etaA etaB eta : ℝ) (mode : TransportMode) (scOpt scOpt2 : Option Spectrum)
    (hsame : sameHemisphere wo wi) :
    (specularTransmission t etaA etaB mode scOpt).pdfF wo wi =
      abs_cos_theta wi * INV_PI ∧
    (fresnelSpecular r t etaA etaB mode scOpt2).pdfF wo wi =
      abs_cos_theta wi * INV_PI ∧
    abs_cos_theta wi * INV_PI ≠ 0 ∧
    (specularTransmission t etaA etaB mode scOpt).typ &&& bsdfSpecular ≠ 0 ∧
    (fresnelSpecular r t etaA etaB mode scOpt2).typ &&& bsdfSpecular ≠ 0 ∧
    (specularTransmission t etaA etaB mode scOpt).fF wo wi = Spectrum.zero ∧
    (fresnelSpecular r t etaA etaB mode scOpt2).fF wo wi = Spectrum.zero ∧
    (Bsdf.mk eta ⟨0, 0, 1⟩ ⟨0, 0, 1⟩ ⟨1, 0, 0⟩ ⟨0, 1, 0⟩
        [specularTransmission t etaA etaB mode scOpt]).pdf wo wi bsdfAll =
      abs_cos_theta wi * INV_PI := by
  unfold sameHemisphere at hsame
  have hwiz : wi.z ≠ 0 := by
    intro h
    rw [h, mul_zero] at hsame
    exact lt_irrefl 0 hsame
  have hwoz : wo.z ≠ 0 := by
    intro h
    rw [h, zero_mul] at hsame
    exact lt_irrefl 0 hsame
  have hst : (specularTransmission t etaA etaB mode scOpt).pdfF wo wi =
      abs_cos_theta wi * INV_PI := by
    show specularTransmissionPdf wo wi = _
    unfold specularTransmissionPdf sameHemisphere
    rw [if_pos hsame]
  have hfs : (fresnelSpecular r t etaA etaB mode scOpt2).pdfF wo wi =
      abs_cos_theta wi * INV_PI := by
    show fresnelSpecularPdf wo wi = _
    unfold fresnelSpecularPdf sameHemisphere
    rw [if_pos hsame]
  have hnz : abs_cos_theta wi * INV_PI ≠ 0 := by
    apply mul_ne_zero
    · unfold abs_cos_theta
      exact abs_ne_zero.mpr hwiz
    · unfold INV_PI
      exact one_div_ne_zero Real.pi_ne_zero
  have hmatch : (specularTransmission t etaA etaB mode scOpt).matchesFlags bsdfAll = true := by
    show ((bsdfTransmission ||| bsdfSpecular) &&& bsdfAll == bsdfTransmission ||| bsdfSpecular) = true
    decide
  refine ⟨hst, hfs, hnz,
    (by show (bsdfTransmission ||| bsdfSpecular) &&& bsdfSpecular ≠ 0; decide),
    (by show (bsdfReflection ||| bsdfTransmission ||| bsdfSpecular) &&& bsdfSpecular ≠ 0
        decide),
    rfl, rfl, ?_⟩
  have hm : (Bsdf.mk eta ⟨0, 0, 1⟩ ⟨0, 0, 1⟩ ⟨1, 0, 0⟩ ⟨0, 1, 0⟩
      [specularTransmission t etaA etaB mode scOpt]).num_components bsdfAll = 1 := by
    unfold Bsdf.num_components
    show List.foldl _ 0 [_] = 1
    rw [List.foldl_cons, List.foldl_nil, if_pos hmatch]
  have hsum : sumPdfAll [specularTransmission t etaA etaB mode scOpt] bsdfAll wo wi =
      abs_cos_theta wi * INV_PI := by
    unfold sumPdfAll
    rw [List.foldl_cons, List.foldl_nil, if_pos hmatch, zero_add]
    exact hst
  unfold Bsdf.pdf
  dsimp only
  rw [canonical_world_to_local, canonical_world_to_local, if_neg (by simp),
    if_neg hwoz, hm, if_pos (by norm_num), hsum]
  norm_num

end Refl

namespace Refl

open RG

theorem C10_witness :
    sameHemisphere (⟨0, 0, 1⟩ : Vec3) (⟨0, 0, 1 / 2⟩ : Vec3) ∧
    ((specularTransmission ⟨1, 1, 1⟩ 1 (3 / 2) TransportMode.radiance none).pdfF
        ⟨0, 0, 1⟩ ⟨0, 0, 1 / 2⟩ =
      abs_cos_theta ⟨0, 0, 1 / 2⟩ * INV_PI ∧
    (fresnelSpecular ⟨1, 1, 1⟩ ⟨1, 1, 1⟩ 1 (3 / 2) TransportMode.radiance none).pdfF
        ⟨0, 0, 1⟩ ⟨0, 0, 1 / 2⟩ =
      abs_cos_theta ⟨0, 0, 1 / 2⟩ * INV_PI ∧
    abs_cos_theta (⟨0, 0, 1 / 2⟩ : Vec3) * INV_PI ≠ 0 ∧
    (specularTransmission ⟨1, 1, 1⟩ 1 (3 / 2) TransportMode.radiance none).typ &&&
      bsdfSpecular ≠ 0 ∧
    (fresnelSpecular ⟨1, 1, 1⟩ ⟨1, 1, 1⟩ 1 (3 / 2) TransportMode.radiance none).typ &&&
      bsdfSpecular ≠ 0 ∧
    (specularTransmission ⟨1, 1, 1⟩ 1 (3 / 2) TransportMode.radiance none).fF
        ⟨0, 0, 1⟩ ⟨0, 0, 1 / 2⟩ = Spectrum.zero ∧
    (fresnelSpecular ⟨1, 1, 1⟩ ⟨1, 1, 1⟩ 1 (3 / 2) TransportMode.radiance none).fF
        ⟨0, 0, 1⟩ ⟨0, 0, 1 / 2⟩ = Spectrum.zero ∧
    (Bsdf.mk 1 ⟨0, 0, 1⟩ ⟨0, 0, 1⟩ ⟨1, 0, 0⟩ ⟨0, 1, 0⟩
        [specularTransmission ⟨1, 1, 1⟩ 1 (3 / 2) TransportMode.radiance none]).pdf
        ⟨0, 0, 1⟩ ⟨0, 0, 1 / 2⟩ bsdfAll =
      abs_cos_theta ⟨0, 0, 1 / 2⟩ * INV_PI) :=
  ⟨by show (1 : ℝ) * (1 / 2) > 0; norm_num,
    C10_specular_transmission_pdf_nonzero ⟨0, 0, 1⟩ ⟨0, 0, 1 / 2⟩ ⟨1, 1, 1⟩ ⟨1, 1, 1⟩
      1 (3 / 2) 1 TransportMode.radiance none none
      (by show (1 : ℝ) * (1 / 2) > 0; norm_num)⟩

end Refl

namespace Refl
open RG

theorem fr_dielectric_entering (c s q : ℝ) (hc0 : 0 < c) (hc1 : c ≤ 1)
    (hs : Real.sqrt (max 0 (1 - c * c)) = s)
    (hTIR : ¬ ((1 : ℝ) / (3 / 2) * s ≥ 1))
    (hq : Real.sqrt (max 0 (1 - 1 / (3 / 2 : ℝ) * s * (1 / (3 / 2 : ℝ) * s))) = q) :
    fr_dielectric c 1 (3 / 2) =
      ((3 / 2 * c - 1 * q) / (3 / 2 * c + 1 * q) * ((3 / 2 * c - 1 * q) / (3 / 2 * c + 1 * q)) +
       (1 * c - 3 / 2 * q) / (1 * c + 3 / 2 * q) * ((1 * c - 3 / 2 * q) / (1 * c + 3 / 2 * q))) / 2 := by
  unfold fr_dielectric clampR
  simp only [if_neg (show ¬ (c < -1) by linarith), if_neg (show ¬ (c > 1) by linarith),
    if_pos hc0]
  rw [hs, if_neg hTIR, hq]

open RG

theorem fsf_reflect (r t : Spectrum) (etaA etaB : ℝ) (mode : TransportMode)
    (scOpt : Option Spectrum) (wo : Vec3) (u : ℝ × ℝ) (wiIn : Vec3) (pdfIn : ℝ)
    (stIn : ℕ) (hu : u.1 < fr_dielectric (cos_theta wo) etaA etaB) :
    (fresnelSpecularSampleF r t etaA etaB mode scOpt wo u wiIn pdfIn stIn).wi =
      ⟨-wo.x, -wo.y, wo.z⟩ ∧
    (fresnelSpecularSampleF r t etaA etaB mode scOpt wo u wiIn pdfIn stIn).pdf =
      fr_dielectric (cos_theta wo) etaA etaB := by
  unfold fresnelSpecularSampleF
  rw [if_pos hu]
  exact ⟨rfl, rfl⟩

theorem fsf_transmit (r t : Spectrum) (etaA etaB : ℝ) (mode : TransportMode)
    (scOpt : Option Spectrum) (wo : Vec3) (u : ℝ × ℝ) (wiIn : Vec3) (pdfIn : ℝ)
    (stIn : ℕ) (hu : ¬ u.1 < fr_dielectric (cos_theta wo) etaA etaB)
    (hent : cos_theta wo > 0) (wiT : Vec3)
    (hr : refract wo (faceforward ⟨0, 0, 1⟩ wo) (etaA / etaB) = some wiT) :
    (fresnelSpecularSampleF r t etaA etaB mode scOpt wo u wiIn pdfIn stIn).wi = wiT ∧
    (fresnelSpecularSampleF r t etaA etaB mode scOpt wo u wiIn pdfIn stIn).pdf =
      1 - fr_dielectric (cos_theta wo) etaA etaB := by
  unfold fresnelSpecularSampleF
  rw [if_neg hu]
  dsimp only
  rw [if_pos hent, if_pos hent, hr]
  exact ⟨rfl, rfl⟩

open RG

theorem fr_dielectric_bounds (c s q : ℝ) (hc0 : 0 < c) (hc1 : c ≤ 1)
    (hs0 : 0 < s) (hs1 : s ≤ 1)
    (hsqrt : Real.sqrt (max 0 (1 - c * c)) = s)
    (hq : Real.sqrt (max 0 (1 - 1 / (3 / 2 : ℝ) * s * (1 / (3 / 2 : ℝ) * s))) = q) :
    0 < fr_dielectric c 1 (3 / 2) ∧ fr_dielectric c 1 (3 / 2) < 1 := by
  have hTIR : ¬ ((1 : ℝ) / (3 / 2) * s ≥ 1) := not_le.mpr (by nlinarith)
  have hmaxq : max 0 (1 - 1 / (3 / 2 : ℝ) * s * (1 / (3 / 2 : ℝ) * s)) =
      1 - 1 / (3 / 2 : ℝ) * s * (1 / (3 / 2 : ℝ) * s) := max_eq_right (by nlinarith)
  have hqlb : 2 / 3 < q := by
    rw [← hq, hmaxq, show (2 / 3 : ℝ) = Real.sqrt ((2 / 3) ^ 2) from
      (Real.sqrt_sq (by norm_num)).symm]
    apply Real.sqrt_lt_sqrt (by positivity)
    nlinarith
  have hq0 : 0 < q := lt_trans (by norm_num) hqlb
  rw [fr_dielectric_entering c s q hc0 hc1 hsqrt hTIR hq]
  have hd1 : 0 < 3 / 2 * c + 1 * q := by nlinarith
  have hd2 : 0 < 1 * c + 3 / 2 * q := by nlinarith
  constructor
  · have hn2 : 1 * c - 3 / 2 * q < 0 := by nlinarith
    have h2 : 0 < (1 * c - 3 / 2 * q) / (1 * c + 3 / 2 * q) *
        ((1 * c - 3 / 2 * q) / (1 * c + 3 / 2 * q)) :=
      mul_self_pos.mpr (div_ne_zero (ne_of_lt hn2) (ne_of_gt hd2))
    have h1 : 0 ≤ (3 / 2 * c - 1 * q) / (3 / 2 * c + 1 * q) *
        ((3 / 2 * c - 1 * q) / (3 / 2 * c + 1 * q)) := mul_self_nonneg _
    linarith
  · have hs1' : (3 / 2 * c - 1 * q) / (3 / 2 * c + 1 * q) *
        ((3 / 2 * c - 1 * q) / (3 / 2 * c + 1 * q)) < 1 := by
      rw [div_mul_div_comm, div_lt_one (mul_pos hd1 hd1)]
      nlinarith [mul_pos hc0 hq0]
    have hs2' : (1 * c - 3 / 2 * q) / (1 * c + 3 / 2 * q) *
        ((1 * c - 3 / 2 * q) / (1 * c + 3 / 2 * q)) < 1 := by
      rw [div_mul_div_comm, div_lt_one (mul_pos hd2 hd2)]
      nlinarith [mul_pos hc0 hq0]
    linarith

open RG

/-- C8: for the FresnelSpecular lobe with a dielectric interface etaA = 1, etaB = 3/2
and outgoing direction wo = (sin 89deg, 0, cos 89deg), the Fresnel reflectance
F = fr_dielectric (cos theta_o) 1 (3/2) lies strictly between 0 and 1; sample_f at
u.x = 0 returns the mirror direction (-wo.x, -wo.y, wo.z) with reported pdf = F,
and sample_f at u.x = 1 returns a refracted direction (z-component below zero,
i.e. in the opposite hemisphere) with reported pdf = 1 - F. -/
theorem C8_fresnel_specular_grazing :
    (0 < fr_dielectric (Real.cos (89 * Real.pi / 180)) 1 (3 / 2) ∧
      fr_dielectric (Real.cos (89 * Real.pi / 180)) 1 (3 / 2) < 1) ∧
    ((fresnelSpecularSampleF ⟨1, 1, 1⟩ ⟨1, 1, 1⟩ 1 (3 / 2) TransportMode.radiance none
        ⟨Real.sin (89 * Real.pi / 180), 0, Real.cos (89 * Real.pi / 180)⟩ (0, 0)
        ⟨0, 0, 0⟩ 0 0).wi =
        ⟨-Real.sin (89 * Real.pi / 180), -0, Real.cos (89 * Real.pi / 180)⟩ ∧
      (fresnelSpecularSampleF ⟨1, 1, 1⟩ ⟨1, 1, 1⟩ 1 (3 / 2) TransportMode.radiance none
        ⟨Real.sin (89 * Real.pi / 180), 0, Real.cos (89 * Real.pi / 180)⟩ (0, 0)
        ⟨0, 0, 0⟩ 0 0).pdf =
        fr_dielectric (Real.cos (89 * Real.pi / 180)) 1 (3 / 2)) ∧
    ((fresnelSpecularSampleF ⟨1, 1, 1⟩ ⟨1, 1, 1⟩ 1 (3 / 2) TransportMode.radiance none
        ⟨Real.sin (89 * Real.pi / 180), 0, Real.cos (89 * Real.pi / 180)⟩ (1, 0)
        ⟨0, 0, 0⟩ 0 0).wi.z < 0 ∧
      (fresnelSpecularSampleF ⟨1, 1, 1⟩ ⟨1, 1, 1⟩ 1 (3 / 2) TransportMode.radiance none
        ⟨Real.sin (89 * Real.pi / 180), 0, Real.cos (89 * Real.pi / 180)⟩ (1, 0)
        ⟨0, 0, 0⟩ 0 0).pdf =
        1 - fr_dielectric (Real.cos (89 * Real.pi / 180)) 1 (3 / 2)) := by
  have hpi := Real.pi_pos
  set θ : ℝ := 89 * Real.pi / 180 with hθ
  have hθ0 : 0 < θ := by rw [hθ]; linarith
  have hθhalf : θ < Real.pi / 2 := by rw [hθ]; linarith
  have hθpi : θ < Real.pi := by linarith
  have hc0 : 0 < Real.cos θ := Real.cos_pos_of_mem_Ioo ⟨by linarith, hθhalf⟩
  have hc1 : Real.cos θ ≤ 1 := Real.cos_le_one θ
  have hs0 : 0 < Real.sin θ := Real.sin_pos_of_pos_of_lt_pi hθ0 hθpi
  have hs1 : Real.sin θ ≤ 1 := Real.sin_le_one θ
  have hpyth : Real.sin θ * Real.sin θ + Real.cos θ * Real.cos θ = 1 := by
    nlinarith [Real.sin_sq_add_cos_sq θ]
  have hsqrt : Real.sqrt (max 0 (1 - Real.cos θ * Real.cos θ)) = Real.sin θ := by
    rw [max_eq_right (by nlinarith),
      show 1 - Real.cos θ * Real.cos θ = Real.sin θ * Real.sin θ by nlinarith]
    exact Real.sqrt_mul_self hs0.le
  obtain ⟨hF0, hF1⟩ :=
    fr_dielectric_bounds (Real.cos θ) (Real.sin θ) _ hc0 hc1 hs0 hs1 hsqrt rfl
  refine ⟨⟨hF0, hF1⟩, ?_, ?_⟩
  · exact fsf_reflect ⟨1, 1, 1⟩ ⟨1, 1, 1⟩ 1 (3 / 2) TransportMode.radiance none
      ⟨Real.sin θ, 0, Real.cos θ⟩ (0, 0) ⟨0, 0, 0⟩ 0 0 hF0
  · have hdot : dot ⟨0, 0, 1⟩ (⟨Real.sin θ, 0, Real.cos θ⟩ : Vec3) = Real.cos θ := by
      simp [dot]
    have hff : faceforward ⟨0, 0, 1⟩ (⟨Real.sin θ, 0, Real.cos θ⟩ : Vec3) = ⟨0, 0, 1⟩ := by
      unfold faceforward
      rw [hdot, if_neg (not_lt.mpr hc0.le)]
    obtain ⟨wiT, hr, hwz⟩ : ∃ wiT,
        refract ⟨Real.sin θ, 0, Real.cos θ⟩ ⟨0, 0, 1⟩ ((1 : ℝ) / (3 / 2)) = some wiT ∧
          wiT.z < 0 := by
      unfold refract
      rw [hdot]
      dsimp only
      have hmax : max 0 (1 - Real.cos θ * Real.cos θ) = Real.sin θ * Real.sin θ := by
        rw [max_eq_right (by nlinarith)]
        nlinarith
      rw [hmax]
      rw [if_neg (show ¬ ((1 : ℝ) / (3 / 2) * (1 / (3 / 2)) *
          (Real.sin θ * Real.sin θ) ≥ 1) from not_le.mpr (by nlinarith))]
      refine ⟨_, rfl, ?_⟩
      simp only [Vec3.add, Vec3.smul, Vec3.neg]
      have hsq : 0 < Real.sqrt (1 - (1 : ℝ) / (3 / 2) * (1 / (3 / 2)) *
          (Real.sin θ * Real.sin θ)) :=
        Real.sqrt_pos.mpr (by nlinarith)
      nlinarith [hsq]
    have h := fsf_transmit ⟨1, 1, 1⟩ ⟨1, 1, 1⟩ 1 (3 / 2) TransportMode.radiance none
      ⟨Real.sin θ, 0, Real.cos θ⟩ (1, 0) ⟨0, 0, 0⟩ 0 0
      (not_lt.mpr hF1.le) hc0 wiT (by rw [hff]; exact hr)
    exact ⟨by rw [h.1]; exact hwz, h.2⟩

end Refl

namespace Refl
open RG

theorem pdfFold_shift (l : List Bxdf) (flags : ℕ) (wo wi : Vec3) (a : ℝ) :
    l.foldl (fun acc b => if b.matchesFlags flags then acc + b.pdfF wo wi else acc) a
      = a + l.foldl (fun acc b => if b.matchesFlags flags then acc + b.pdfF wo wi else acc) 0 := by
  induction l generalizing a with
  | nil => simp
  | cons c rest ih =>
      rw [List.foldl_cons, List.foldl_cons,
        ih (if c.matchesFlags flags then a + c.pdfF wo wi else a),
        ih (if c.matchesFlags flags then 0 + c.pdfF wo wi else 0)]
      by_cases h : c.matchesFlags flags
      · rw [if_pos h, if_pos h] <;> ring
      · rw [if_neg h, if_neg h] <;> ring

theorem sumPdfAll_cons (c : Bxdf) (rest : List Bxdf) (flags : ℕ) (wo wi : Vec3) :
    sumPdfAll (c :: rest) flags wo wi
      = (if c.matchesFlags flags then c.pdfF wo wi else 0) + sumPdfAll rest flags wo wi := by
  unfold sumPdfAll
  rw [List.foldl_cons, pdfFold_shift]
  by_cases h : c.matchesFlags flags
  · rw [if_pos h, if_pos h] <;> ring
  · rw [if_neg h, if_neg h] <;> ring

theorem pdfPairFold_shift (lp : List (ℕ × Bxdf)) (flags skip : ℕ) (wo wi : Vec3) (a : ℝ) :
    lp.foldl (fun acc ib =>
        if ib.1 ≠ skip ∧ ib.2.matchesFlags flags then acc + ib.2.pdfF wo wi else acc) a
      = a + lp.foldl (fun acc ib =>
        if ib.1 ≠ skip ∧ ib.2.matchesFlags flags then acc + ib.2.pdfF wo wi else acc) 0 := by
  induction lp generalizing a with
  | nil => simp
  | cons c rest ih =>
      rw [List.foldl_cons, List.foldl_cons,
        ih (if c.1 ≠ skip ∧ c.2.matchesFlags flags then a + c.2.pdfF wo wi else a),
        ih (if c.1 ≠ skip ∧ c.2.matchesFlags flags then 0 + c.2.pdfF wo wi else 0)]
      by_cases h : c.1 ≠ skip ∧ c.2.matchesFlags flags
      · rw [if_pos h, if_pos h] <;> ring
      · rw [if_neg h, if_neg h] <;> ring

theorem enumFold_all (l : List Bxdf) (flags skip : ℕ) (wo wi : Vec3) :
    ∀ n : ℕ, skip < n →
      (l.enumFrom n).foldl (fun acc ib =>
          if ib.1 ≠ skip ∧ ib.2.matchesFlags flags then acc + ib.2.pdfF wo wi else acc) 0
        = sumPdfAll l flags wo wi := by
  induction l with
  | nil => intro n _; simp [sumPdfAll]
  | cons c rest ih =>
      intro n hn
      have hcons : (c :: rest).enumFrom n = (n, c) :: rest.enumFrom (n + 1) := rfl
      rw [hcons, List.foldl_cons, pdfPairFold_shift, ih (n + 1) (by omega), sumPdfAll_cons]
      have hne : n ≠ skip := by omega
      by_cases h : c.matchesFlags flags
      · rw [if_pos ⟨hne, h⟩, if_pos h] <;> ring
      · rw [if_neg (fun hc => h hc.2), if_neg h] <;> ring

theorem enumFold_skip (l : List Bxdf) (flags skip : ℕ) (wo wi : Vec3) (b : Bxdf)
    (hmb : b.matchesFlags flags = true) :
    ∀ n : ℕ, n ≤ skip → l[skip - n]? = some b →
      (l.enumFrom n).foldl (fun acc ib =>
          if ib.1 ≠ skip ∧ ib.2.matchesFlags flags then acc + ib.2.pdfF wo wi else acc) 0
        = sumPdfAll l flags wo wi - b.pdfF wo wi := by
  induction l with
  | nil => intro n _ hb; simp at hb
  | cons c rest ih =>
      intro n hn hb
      have hcons : (c :: rest).enumFrom n = (n, c) :: rest.enumFrom (n + 1) := rfl
      rw [hcons, List.foldl_cons]
      by_cases hskip : n = skip
      · subst hskip
        have hcb : c = b := by
          rw [Nat.sub_self] at hb
          simpa using hb
        rw [if_neg (by simp), enumFold_all rest flags n wo wi (n + 1) (by omega),
          sumPdfAll_cons, hcb, if_pos hmb]
        ring
      · have hlt : n < skip := lt_of_le_of_ne hn hskip
        have hb' : rest[skip - (n + 1)]? = some b := by
          have hs : skip - n = (skip - (n + 1)) + 1 := by omega
          rw [hs] at hb
          simpa using hb
        rw [pdfPairFold_shift, ih (n + 1) (by omega) hb', sumPdfAll_cons]
        by_cases h : c.matchesFlags flags
        · rw [if_pos ⟨hskip, h⟩, if_pos h] <;> ring
        · rw [if_neg (fun hc => h hc.2), if_neg h] <;> ring

theorem sumPdfExcept_eq (l : List Bxdf) (flags skip : ℕ) (wo wi : Vec3) (b : Bxdf)
    (hb : l[skip]? = some b) (hmb : b.matchesFlags flags = true) :
    sumPdfExcept l flags skip wo wi = sumPdfAll l flags wo wi - b.pdfF wo wi := by
  unfold sumPdfExcept
  have h0 : l.enum = l.enumFrom 0 := rfl
  rw [h0]
  exact enumFold_skip l flags skip wo wi b hmb 0 (Nat.zero_le _) (by simpa using hb)

theorem ncFold_shift (l : List Bxdf) (flags : ℕ) (a : ℕ) :
    l.foldl (fun num b => if b.matchesFlags flags then num + 1 else num) a
      = a + l.foldl (fun num b => if b.matchesFlags flags then num + 1 else num) 0 := by
  induction l generalizing a with
  | nil => simp
  | cons c rest ih =>
      rw [List.foldl_cons, List.foldl_cons,
        ih (if c.matchesFlags flags then a + 1 else a),
        ih (if c.matchesFlags flags then 0 + 1 else 0)]
      by_cases h : c.matchesFlags flags
      · rw [if_pos h, if_pos h] <;> omega
      · rw [if_neg h, if_neg h] <;> omega

theorem num_components_eq_countP (bs : Bsdf) (flags : ℕ) :
    bs.num_components flags = bs.bxdfs.countP (fun b => b.matchesFlags flags) := by
  unfold Bsdf.num_components
  have key : ∀ l : List Bxdf,
      l.foldl (fun num b => if b.matchesFlags flags then num + 1 else num) 0
        = l.countP (fun b => b.matchesFlags flags) := by
    intro l
    induction l with
    | nil => simp
    | cons c rest ih =>
        rw [List.foldl_cons, ncFold_shift, ih, List.countP_cons]
        by_cases h : c.matchesFlags flags <;> simp [h] <;> omega
  exact key bs.bxdfs

theorem findMatchingAux_spec (flags : ℕ) :
    ∀ (l : List Bxdf) (count i0 : ℕ),
      count < l.countP (fun b => b.matchesFlags flags) →
      ∃ (j : ℕ) (b : Bxdf),
        findMatchingAux l flags count i0 = some (b, i0 + j) ∧
        l[j]? = some b ∧
        b.matchesFlags flags = true ∧
        (l.filter (fun b => b.matchesFlags flags))[count]? = some b := by
  intro l
  induction l with
  | nil => intro count i0 h; simp at h
  | cons c rest ih =>
      intro count i0 h
      unfold findMatchingAux
      by_cases hm : c.matchesFlags flags
      · rw [if_pos hm]
        cases count with
        | zero =>
            rw [if_pos rfl]
            refine ⟨0, c, by rw [Nat.add_zero], by simp, hm, ?_⟩
            simp [List.filter_cons, hm]
        | succ k =>
            rw [if_neg (Nat.succ_ne_zero k)]
            have h' : k < rest.countP (fun b => b.matchesFlags flags) := by
              rw [List.countP_cons, if_pos hm] at h
              omega
            obtain ⟨j, b, heq, hget, hmb, hfil⟩ := ih k (i0 + 1) h'
            refine ⟨j + 1, b, ?_, by simpa using hget, hmb, ?_⟩
            · rw [show Nat.succ k - 1 = k from rfl, heq]
              have hadd : i0 + 1 + j = i0 + (j + 1) := by omega
              rw [hadd]
            · simpa [List.filter_cons, hm] using hfil
      · rw [if_neg hm]
        have h' : count < rest.countP (fun b => b.matchesFlags flags) := by
          rw [List.countP_cons, if_neg hm] at h
          omega
        obtain ⟨j, b, heq, hget, hmb, hfil⟩ := ih count (i0 + 1) h'
        refine ⟨j + 1, b, ?_, by simpa using hget, hmb, ?_⟩
        · rw [heq]
          have hadd : i0 + 1 + j = i0 + (j + 1) := by omega
          rw [hadd]
        · simpa [List.filter_cons, hm] using hfil

end Refl

namespace Refl
open RG

/-- C3: for a `Bsdf` with more than one matching lobe and `wo` with nonzero
z in the shading frame, `Bsdf::sample_f` picks the `comp`-th matching lobe
with `comp = min(floor(u.x * M), M - 1)` (the chosen lobe is the `comp`-th
element of the matching sublist), remaps `u.x` to
`min(u.x * M - comp, FLOAT_ONE_MINUS_EPSILON)` and delegates sampling to that
lobe; when the chosen lobe is non-specular (and the lobe's reported sample
pdf agrees with its `pdf(wo, wi)`), the returned pdf is the sum of
`pdf(wo, wi)` over all matching lobes divided by `M`, and the returned `f`
is re-evaluated as the sum of `f(wo, wi)` over the matching lobes whose
reflect/transmit flag agrees with the sign of `(wi_w . ng) * (wo_w . ng)`. -/
theorem C3_bsdf_sample_f_mixture
    (bs : Bsdf) (woWorld wiWorldIn : Vec3) (u : ℝ × ℝ) (pdfIn : ℝ)
    (flags stIn : ℕ) (b : Bxdf) (j comp : ℕ) (ls : LobeSample)
    (hM1 : 1 < bs.num_components flags)
    (hwoz : (bs.world_to_local woWorld).z ≠ 0)
    (hcomp : comp = min (Int.toNat ⌊u.1 * ((bs.num_components flags : ℕ) : ℝ)⌋)
        (bs.num_components flags - 1))
    (hch : findMatchingAux bs.bxdfs flags comp 0 = some (b, j))
    (hls : ls = b.sampleF (bs.world_to_local woWorld)
        (min (u.1 * ((bs.num_components flags : ℕ) : ℝ) - (comp : ℝ)) oneMinusEpsilon, u.2)
        ⟨0, 0, 0⟩ 0 (if stIn ≠ 0 then b.typ else stIn))
    (hpdf : ls.pdf ≠ 0)
    (hnonspec : b.typ &&& bsdfSpecular = 0)
    (hconsist : b.pdfF (bs.world_to_local woWorld) ls.wi = ls.pdf) :
    b.matchesFlags flags = true ∧
    (bs.bxdfs.filter (fun x => x.matchesFlags flags))[comp]? = some b ∧
    bs.sample_f woWorld wiWorldIn u pdfIn flags stIn =
      ⟨sumMatchingF bs.bxdfs flags
          (dot (bs.local_to_world ls.wi) bs.ng * dot woWorld bs.ng > 0)
          (bs.world_to_local woWorld) ls.wi,
        bs.local_to_world ls.wi,
        sumPdfAll bs.bxdfs flags (bs.world_to_local woWorld) ls.wi
          / ((bs.num_components flags : ℕ) : ℝ),
        ls.st⟩ := by
  have hcount : comp < bs.bxdfs.countP (fun x => x.matchesFlags flags) := by
    rw [← num_components_eq_countP, hcomp]
    exact lt_of_le_of_lt (min_le_right _ _) (by omega)
  obtain ⟨j', b', heq, hget, hmb, hfil⟩ := findMatchingAux_spec flags bs.bxdfs comp 0 hcount
  have hinj := heq.symm.trans hch
  rw [Option.some.injEq, Prod.mk.injEq] at hinj
  obtain ⟨hb', hj'⟩ := hinj
  rw [hb'] at hget hmb hfil
  rw [Nat.zero_add] at hj'
  rw [hj'] at hget
  refine ⟨hmb, hfil, ?_⟩
  unfold Bsdf.sample_f
  rw [if_neg (show ¬ bs.num_components flags = 0 by omega)]
  dsimp only
  rw [← hcomp, hch]
  dsimp only
  rw [if_neg hwoz, ← hls, if_neg hpdf]
  rw [if_pos (⟨hnonspec, by omega⟩ : b.typ &&& bsdfSpecular = 0 ∧ bs.num_components flags > 1),
    if_pos (show bs.num_components flags > 1 by omega),
    if_pos hnonspec]
  have hp : ls.pdf + sumPdfExcept bs.bxdfs flags j (bs.world_to_local woWorld) ls.wi
      = sumPdfAll bs.bxdfs flags (bs.world_to_local woWorld) ls.wi := by
    rw [sumPdfExcept_eq bs.bxdfs flags j (bs.world_to_local woWorld) ls.wi b hget hmb,
      hconsist]
    ring
  rw [hp]

end Refl

namespace Refl
open RG

theorem C3_witness :
    c3Lobe1.matchesFlags bsdfAll = true ∧
    (c3Bsdf.bxdfs.filter (fun x => x.matchesFlags bsdfAll))[0]? = some c3Lobe1 ∧
    c3Bsdf.sample_f ⟨0, 0, 1⟩ ⟨0, 0, 0⟩ ((0 : ℝ), (0 : ℝ)) 0 bsdfAll 0 =
      ⟨sumMatchingF c3Bsdf.bxdfs bsdfAll
          (dot (c3Bsdf.local_to_world ⟨0, 0, 1⟩) c3Bsdf.ng * dot ⟨0, 0, 1⟩ c3Bsdf.ng > 0)
          (c3Bsdf.world_to_local ⟨0, 0, 1⟩) ⟨0, 0, 1⟩,
        c3Bsdf.local_to_world ⟨0, 0, 1⟩,
        sumPdfAll c3Bsdf.bxdfs bsdfAll (c3Bsdf.world_to_local ⟨0, 0, 1⟩) ⟨0, 0, 1⟩
          / ((c3Bsdf.num_components bsdfAll : ℕ) : ℝ),
        0⟩ := by
  have hnum : c3Bsdf.num_components bsdfAll = 2 := rfl
  exact C3_bsdf_sample_f_mixture c3Bsdf ⟨0, 0, 1⟩ ⟨0, 0, 0⟩ ((0 : ℝ), (0 : ℝ)) 0 bsdfAll 0
    c3Lobe1 0 0 ⟨⟨0, 0, 1⟩, 1 / 2, ⟨1, 1, 1⟩, 0⟩
    (by rw [hnum]; norm_num)
    (by norm_num [Bsdf.world_to_local, dot, c3Bsdf])
    (by rw [hnum]; norm_num)
    rfl
    rfl
    (by norm_num)
    (by decide)
    rfl

end Refl

namespace Refl
open RG

theorem C3_remap_cap_counterexample :
    min (Int.toNat ⌊(1 - 1 / 2 ^ 26 : ℝ) * ((c3CapBsdf.num_components bsdfAll : ℕ) : ℝ)⌋)
        (c3CapBsdf.num_components bsdfAll - 1) = 0 ∧
    (c3CapBsdf.sample_f ⟨0, 0, 1⟩ ⟨0, 0, 0⟩ ((1 - 1 / 2 ^ 26 : ℝ), 0) 0 bsdfAll 0).pdf
        = oneMinusEpsilon ∧
    oneMinusEpsilon
        ≠ (1 - 1 / 2 ^ 26 : ℝ) * ((c3CapBsdf.num_components bsdfAll : ℕ) : ℝ) - ((0 : ℕ) : ℝ) := by
  have hnum : c3CapBsdf.num_components bsdfAll = 1 := rfl
  have hfl : ⌊(1 - 1 / 2 ^ 26 : ℝ) * (((1 : ℕ) : ℕ) : ℝ)⌋ = 0 := by
    rw [Int.floor_eq_zero_iff]
    constructor <;> norm_num
  have hc : min (Int.toNat ⌊(1 - 1 / 2 ^ 26 : ℝ) * ((c3CapBsdf.num_components bsdfAll : ℕ) : ℝ)⌋)
      (c3CapBsdf.num_components bsdfAll - 1) = 0 := by
    rw [hnum, hfl]
    rfl
  refine ⟨hc, ?_, ?_⟩
  · unfold Bsdf.sample_f
    rw [if_neg (show ¬ c3CapBsdf.num_components bsdfAll = 0 by rw [hnum]; norm_num)]
    dsimp only
    rw [hc]
    rw [show findMatchingAux c3CapBsdf.bxdfs bsdfAll 0 0 = some (c3CapLobe, 0) from rfl]
    dsimp only
    rw [if_neg (show ¬ (c3CapBsdf.world_to_local ⟨0, 0, 1⟩).z = 0 by
      norm_num [Bsdf.world_to_local, dot, c3CapBsdf])]
    rw [hnum]
    have hmin : min ((1 - 1 / 2 ^ 26 : ℝ) * (((1 : ℕ) : ℕ) : ℝ) - ((0 : ℕ) : ℝ))
        oneMinusEpsilon = oneMinusEpsilon := by
      apply min_eq_right
      norm_num [oneMinusEpsilon]
    dsimp only [c3CapLobe]
    rw [hmin]
    rw [if_neg (show ¬ (oneMinusEpsilon = 0) by norm_num [oneMinusEpsilon])]
    rw [if_neg (show ¬ (bsdfReflection &&& bsdfSpecular = 0 ∧ (1 : ℕ) > 1) from
      fun h => absurd h.2 (by norm_num))]
    rw [if_neg (show ¬ ((1 : ℕ) > 1) by norm_num)]
  · rw [hnum]
    norm_num [oneMinusEpsilon]

end Refl

namespace BDPT

theorem remap0_of_ne (x : ℚ) (h : x ≠ 0) : remap0 x = x := if_neg h

theorem getD_map_range (h : ℕ → MisVertex) (n i : ℕ) (hi : i < n) (d : MisVertex) :
    ((List.range n).map h).getD i d = h i := by
  rw [List.getD_eq_getElem?_getD, List.getElem?_map, List.getElem?_range hi]
  rfl

theorem cameraWalkAux_eval (f : ℕ → MisVertex × MisVertex) (ρ : ℕ → ℚ) :
    ∀ n : ℕ,
      (∀ i, 1 ≤ i → i ≤ n → remap0 (f i).1.pdf_rev / remap0 (f i).1.pdf_fwd = ρ i) →
      (∀ i, 1 ≤ i → i ≤ n → (f i).1.delta = false ∧ (f i).2.delta = false) →
      ∀ r : ℚ, cameraWalkAux f n r
        = ∑ i ∈ Finset.Icc 1 n, r * ∏ j ∈ Finset.Icc i n, ρ j := by
  intro n
  induction n with
  | zero => intro _ _ r; simp [cameraWalkAux]
  | succ n ih =>
      intro hρ hδ r
      have hstep : remap0 (f (n + 1)).1.pdf_rev / remap0 (f (n + 1)).1.pdf_fwd = ρ (n + 1) :=
        hρ (n + 1) (by omega) (by omega)
      have hdel := hδ (n + 1) (by omega) (by omega)
      show (if (f (n + 1)).1.delta = false ∧ (f (n + 1)).2.delta = false
        then r * (remap0 (f (n + 1)).1.pdf_rev / remap0 (f (n + 1)).1.pdf_fwd) else 0)
        + cameraWalkAux f n (r * (remap0 (f (n + 1)).1.pdf_rev / remap0 (f (n + 1)).1.pdf_fwd))
        = _
      rw [if_pos hdel, hstep,
        ih (fun i h1 h2 => hρ i h1 (by omega)) (fun i h1 h2 => hδ i h1 (by omega))]
      have hterm : ∀ i ∈ Finset.Icc 1 n,
          r * ρ (n + 1) * ∏ j ∈ Finset.Icc i n, ρ j
            = r * ∏ j ∈ Finset.Icc i (n + 1), ρ j := by
        intro i hi
        rw [Finset.prod_Icc_succ_top (show i ≤ n + 1 from
          le_trans (Finset.mem_Icc.mp hi).2 (by omega))]
        ring
      rw [Finset.sum_congr rfl hterm, Finset.sum_Icc_succ_top (show 1 ≤ n + 1 by omega)]
      rw [Finset.Icc_self, Finset.prod_singleton]
      ring

theorem lightWalkAux_eval (g : ℕ → MisVertex) (dt : ℕ → Bool) (σ : ℕ → ℚ) :
    ∀ n : ℕ,
      (∀ i, i < n → remap0 (g i).pdf_rev / remap0 (g i).pdf_fwd = σ i) →
      (∀ i, i < n → (g i).delta = false ∧ dt i = false) →
      ∀ r : ℚ, lightWalkAux g dt n r
        = ∑ i ∈ Finset.range n, r * ∏ j ∈ Finset.Ico i n, σ j := by
  intro n
  induction n with
  | zero => intro _ _ r; simp [lightWalkAux]
  | succ n ih =>
      intro hσ hδ r
      have hstep : remap0 (g n).pdf_rev / remap0 (g n).pdf_fwd = σ n := hσ n (by omega)
      have hdel := hδ n (by omega)
      show (if (g n).delta = false ∧ dt n = false
        then r * (remap0 (g n).pdf_rev / remap0 (g n).pdf_fwd) else 0)
        + lightWalkAux g dt n (r * (remap0 (g n).pdf_rev / remap0 (g n).pdf_fwd))
        = _
      rw [if_pos hdel, hstep,
        ih (fun i h2 => hσ i (by omega)) (fun i h2 => hδ i (by omega))]
      have hterm : ∀ i ∈ Finset.range n,
          r * σ n * ∏ j ∈ Finset.Ico i n, σ j
            = r * ∏ j ∈ Finset.Ico i (n + 1), σ j := by
        intro i hi
        rw [Finset.prod_Ico_succ_top (show i ≤ n from le_of_lt (Finset.mem_range.mp hi))]
        ring
      rw [Finset.sum_congr rfl hterm, Finset.sum_range_succ]
      rw [Nat.Ico_succ_singleton, Finset.prod_singleton]
      ring

end BDPT

namespace BDPT

theorem gq_pos (af bf : ℕ → ℚ) (n : ℕ)
    (ha : ∀ m, m < n → 0 < af m) (hb : ∀ m, m < n → 0 < bf m) :
    0 < gq af bf n := by
  unfold gq
  exact Finset.prod_pos fun m hm =>
    div_pos (ha m (Finset.mem_range.mp hm)) (hb m (Finset.mem_range.mp hm))

theorem prodIco_af_bf (af bf : ℕ → ℚ) (i n : ℕ) (hin : i ≤ n)
    (hgi : gq af bf i ≠ 0) :
    ∏ m ∈ Finset.Ico i n, (af m / bf m) = gq af bf n / gq af bf i := by
  have hsplit : gq af bf i * ∏ m ∈ Finset.Ico i n, (af m / bf m) = gq af bf n := by
    unfold gq
    rw [Finset.range_eq_Ico]
    exact Finset.prod_Ico_consecutive _ (Nat.zero_le i) hin
  rw [eq_div_iff hgi, mul_comm]
  exact hsplit

theorem prodIco_bf_af (af bf : ℕ → ℚ) (i n : ℕ) (hin : i ≤ n)
    (ha : ∀ m, m < n → 0 < af m) (hb : ∀ m, m < n → 0 < bf m) :
    ∏ m ∈ Finset.Ico i n, (bf m / af m) = gq af bf i / gq af bf n := by
  have hgi : gq af bf i ≠ 0 :=
    ne_of_gt (gq_pos af bf i (fun m hm => ha m (by omega)) (fun m hm => hb m (by omega)))
  have h1 : ∏ m ∈ Finset.Ico i n, (bf m / af m)
      = (∏ m ∈ Finset.Ico i n, (af m / bf m))⁻¹ := by
    rw [← Finset.prod_inv_distrib]
    exact Finset.prod_congr rfl fun m _ => (inv_div _ _).symm
  rw [h1, prodIco_af_bf af bf i n hin hgi, inv_div]

end BDPT

namespace BDPT

theorem cameraList_getD (af bf : ℕ → ℚ) (k t j : ℕ) (hj : j < t) :
    (cameraList af bf k t).getD j mvDefault
      = ⟨false, bf (k - 1 - j), af (k - 1 - j), false⟩ := by
  unfold cameraList
  exact getD_map_range _ t j hj mvDefault

theorem lightList_getD (af bf : ℕ → ℚ) (s i : ℕ) (hi : i < s) :
    (lightList af bf s).getD i mvDefault = ⟨false, af i, bf i, false⟩ := by
  unfold lightList
  exact getD_map_range _ s i hi mvDefault

theorem misWeight_eq (k s : ℕ) (af bf : ℕ → ℚ) (hk : 3 ≤ k) (hs : s < k)
    (ha : ∀ m, m < k → 0 < af m) (hb : ∀ m, m < k → 0 < bf m) :
    misWeight (lightList af bf s) (cameraList af bf k (k - s))
        ⟨false, af 0, bf 0, false⟩ s (k - s)
        (af s) (af (s + 1)) (bf (s - 1)) (bf (s - 2))
      = gq af bf s / ∑ m ∈ Finset.range k, gq af bf m := by
  unfold misWeight
  rw [if_neg (show ¬ (s + (k - s) = 2) by omega)]
  dsimp only
  rw [cameraWalkAux_eval _ (fun i => af (k - 1 - i) / bf (k - 1 - i)) (k - s - 1)
    (by
      intro i h1 h2
      dsimp only
      by_cases hi1 : i = k - s - 1
      · rw [if_pos hi1, cameraList_getD af bf k (k - s) (k - s - 1) (by omega)]
        dsimp only
        rw [show k - 1 - (k - s - 1) = s from by omega,
          remap0_of_ne _ (ne_of_gt (ha s hs)), remap0_of_ne _ (ne_of_gt (hb s hs)),
          show k - 1 - i = s from by omega]
      · by_cases hi2 : i = k - s - 2
        · rw [if_neg hi1, if_pos hi2, cameraList_getD af bf k (k - s) (k - s - 2) (by omega)]
          dsimp only
          rw [show k - 1 - (k - s - 2) = s + 1 from by omega,
            remap0_of_ne _ (ne_of_gt (ha (s + 1) (by omega))),
            remap0_of_ne _ (ne_of_gt (hb (s + 1) (by omega))),
            show k - 1 - i = s + 1 from by omega]
        · rw [if_neg hi1, if_neg hi2, cameraList_getD af bf k (k - s) i (by omega)]
          dsimp only
          rw [remap0_of_ne _ (ne_of_gt (ha (k - 1 - i) (by omega))),
            remap0_of_ne _ (ne_of_gt (hb (k - 1 - i) (by omega)))])
    (by
      intro i h1 h2
      dsimp only
      refine ⟨?_, ?_⟩
      · by_cases hi1 : i = k - s - 1
        · rw [if_pos hi1]
        · by_cases hi2 : i = k - s - 2
          · rw [if_neg hi1, if_pos hi2, cameraList_getD af bf k (k - s) (k - s - 2) (by omega)]
          · rw [if_neg hi1, if_neg hi2, cameraList_getD af bf k (k - s) i (by omega)]
      · by_cases hi1 : i = k - s - 1
        · rw [if_pos hi1, cameraList_getD af bf k (k - s) (k - s - 2) (by omega)]
        · rw [if_neg hi1, cameraList_getD af bf k (k - s) (i - 1) (by omega)])
    1]
  rw [lightWalkAux_eval _ _ (fun i => bf i / af i) s
    (by
      intro i hi
      dsimp only
      by_cases hi1 : i = s - 1
      · rw [if_pos hi1]
        dsimp only
        by_cases hs1 : s = 1
        · rw [if_pos hs1]
          dsimp only
          rw [show s - 1 = 0 from by omega,
            remap0_of_ne _ (ne_of_gt (hb 0 (by omega))),
            remap0_of_ne _ (ne_of_gt (ha 0 (by omega))),
            show i = 0 from by omega]
        · rw [if_neg hs1, lightList_getD af bf s (s - 1) (by omega)]
          dsimp only
          rw [remap0_of_ne _ (ne_of_gt (hb (s - 1) (by omega))),
            remap0_of_ne _ (ne_of_gt (ha (s - 1) (by omega))),
            show i = s - 1 from hi1]
      · by_cases hi2 : i = s - 2
        · rw [if_neg hi1, if_pos hi2, lightList_getD af bf s (s - 2) (by omega)]
          dsimp only
          rw [remap0_of_ne _ (ne_of_gt (hb (s - 2) (by omega))),
            remap0_of_ne _ (ne_of_gt (ha (s - 2) (by omega))),
            show i = s - 2 from hi2]
        · rw [if_neg hi1, if_neg hi2, lightList_getD af bf s i hi]
          dsimp only
          rw [remap0_of_ne _ (ne_of_gt (hb i (by omega))),
            remap0_of_ne _ (ne_of_gt (ha i (by omega)))])
    (by
      intro i hi
      refine ⟨?_, ?_⟩
      · dsimp only
        by_cases hi1 : i = s - 1
        · rw [if_pos hi1]
        · by_cases hi2 : i = s - 2
          · rw [if_neg hi1, if_pos hi2, lightList_getD af bf s (s - 2) (by omega)]
          · rw [if_neg hi1, if_neg hi2, lightList_getD af bf s i hi]
      · dsimp only
        by_cases hi0 : 0 < i
        · rw [if_pos hi0]
          by_cases hi1 : i = s - 1
          · rw [if_pos hi1]
            by_cases hs2 : 1 < s
            · rw [if_pos hs2, lightList_getD af bf s (s - 2) (by omega)]
            · exfalso; omega
          · rw [if_neg hi1, lightList_getD af bf s (i - 1) (by omega)]
        · rw [if_neg hi0]
          by_cases hi1 : i = s - 1
          · rw [if_pos hi1]
            dsimp only
            by_cases hs1 : s = 1
            · rw [if_pos hs1]
            · rw [if_neg hs1, lightList_getD af bf s (s - 1) (by omega)]
          · by_cases hi2 : i = s - 2
            · rw [if_neg hi1, if_pos hi2, lightList_getD af bf s (s - 2) (by omega)]
            · rw [if_neg hi1, if_neg hi2, lightList_getD af bf s i hi])
    1]
  have hgs : gq af bf s ≠ 0 :=
    ne_of_gt (gq_pos af bf s (fun m hm => ha m (by omega)) (fun m hm => hb m (by omega)))
  have hcamsum : ∑ i ∈ Finset.Icc 1 (k - s - 1),
      1 * ∏ j ∈ Finset.Icc i (k - s - 1), af (k - 1 - j) / bf (k - 1 - j)
        = ∑ m ∈ Finset.Ico (s + 1) k, gq af bf m / gq af bf s := by
    refine Finset.sum_nbij' (fun i => k - i) (fun m => k - m) ?_ ?_ ?_ ?_ ?_
    · intro a haa
      dsimp only
      rw [Finset.mem_Icc] at haa
      rw [Finset.mem_Ico]
      omega
    · intro a haa
      dsimp only
      rw [Finset.mem_Ico] at haa
      rw [Finset.mem_Icc]
      omega
    · intro a haa
      dsimp only
      rw [Finset.mem_Icc] at haa
      omega
    · intro a haa
      dsimp only
      rw [Finset.mem_Ico] at haa
      omega
    · intro a haa
      dsimp only
      rw [Finset.mem_Icc] at haa
      rw [one_mul]
      have hprod : ∏ j ∈ Finset.Icc a (k - s - 1), af (k - 1 - j) / bf (k - 1 - j)
          = ∏ m ∈ Finset.Ico s (k - a), af m / bf m := by
        refine Finset.prod_nbij' (fun j => k - 1 - j) (fun m => k - 1 - m) ?_ ?_ ?_ ?_ ?_
        · intro x hx
          dsimp only
          rw [Finset.mem_Icc] at hx
          rw [Finset.mem_Ico]
          omega
        · intro x hx
          dsimp only
          rw [Finset.mem_Ico] at hx
          rw [Finset.mem_Icc]
          omega
        · intro x hx
          dsimp only
          rw [Finset.mem_Icc] at hx
          omega
        · intro x hx
          dsimp only
          rw [Finset.mem_Ico] at hx
          omega
        · intro x hx
          rfl
      rw [hprod, prodIco_af_bf af bf s (k - a) (by omega) hgs]
  have hlightsum : ∑ i ∈ Finset.range s, 1 * ∏ j ∈ Finset.Ico i s, bf j / af j
      = ∑ m ∈ Finset.range s, gq af bf m / gq af bf s := by
    refine Finset.sum_congr rfl fun i hi => ?_
    rw [Finset.mem_range] at hi
    rw [one_mul, prodIco_bf_af af bf i s (by omega)
      (fun m hm => ha m (by omega)) (fun m hm => hb m (by omega))]
  rw [hcamsum, hlightsum]
  have hassemble : 1 + (∑ m ∈ Finset.Ico (s + 1) k, gq af bf m / gq af bf s
      + ∑ m ∈ Finset.range s, gq af bf m / gq af bf s)
        = (∑ m ∈ Finset.range k, gq af bf m) / gq af bf s := by
    rw [Finset.sum_div]
    rw [Finset.range_eq_Ico,
      ← Finset.sum_Ico_consecutive (fun m => gq af bf m / gq af bf s)
        (Nat.zero_le s) (le_of_lt hs),
      Finset.sum_eq_sum_Ico_succ_bot hs (fun m => gq af bf m / gq af bf s),
      div_self hgs, ← Finset.range_eq_Ico]
    ring
  rw [hassemble, one_div_div]

end BDPT

namespace BDPT

/-- C2: for every delta-free bidirectional path of `k` vertices (light-side
densities `af`, camera-side densities `bf`, all positive), the sum of
`mis_weight` over all legal strategies `(s, t)` with `s + t = k` — those
enumerated by `render_tile`: `t ≥ 1`, `s ≥ 0`, excluding `(1, 1)` — equals
exactly 1. -/
theorem C2_bdpt_mis_partition_of_unity (k : ℕ) (hk : 2 ≤ k) (af bf : ℕ → ℚ)
    (ha : ∀ m, m < k → 0 < af m) (hb : ∀ m, m < k → 0 < bf m) :
    ∑ s ∈ (Finset.range k).filter (fun s => ¬(s = 1 ∧ k - s = 1)),
      misWeight (lightList af bf s) (cameraList af bf k (k - s))
        ⟨false, af 0, bf 0, false⟩ s (k - s)
        (af s) (af (s + 1)) (bf (s - 1)) (bf (s - 2)) = 1 := by
  rcases eq_or_lt_of_le hk with hk2 | hk3
  · obtain rfl : k = 2 := hk2.symm
    have hfil : (Finset.range 2).filter (fun s => ¬(s = 1 ∧ 2 - s = 1)) = {0} := by
      apply Finset.ext
      intro x
      simp only [Finset.mem_filter, Finset.mem_range, Finset.mem_singleton]
      omega
    rw [hfil, Finset.sum_singleton]
    unfold misWeight
    rw [if_pos (by norm_num)]
  · have hk3' : 3 ≤ k := hk3
    have hfil : (Finset.range k).filter (fun s => ¬(s = 1 ∧ k - s = 1))
        = Finset.range k := by
      apply Finset.filter_true_of_mem
      intro s hsmem
      rw [Finset.mem_range] at hsmem
      rintro ⟨h1, h2⟩
      omega
    rw [hfil]
    rw [Finset.sum_congr rfl (fun s hsmem =>
      misWeight_eq k s af bf hk3' (Finset.mem_range.mp hsmem) ha hb)]
    have hsum : 0 < ∑ m ∈ Finset.range k, gq af bf m := by
      apply Finset.sum_pos
      · intro m hm
        rw [Finset.mem_range] at hm
        exact gq_pos af bf m (fun j hj => ha j (by omega)) (fun j hj => hb j (by omega))
      · exact ⟨0, Finset.mem_range.mpr (by omega)⟩
    rw [← Finset.sum_div, div_self (ne_of_gt hsum)]

theorem C2_witness :
    (2 : ℕ) ≤ 3 ∧
    ∑ s ∈ (Finset.range 3).filter (fun s => ¬(s = 1 ∧ 3 - s = 1)),
      misWeight (lightList (fun _ => 1) (fun _ => 1) s)
        (cameraList (fun _ => 1) (fun _ => 1) 3 (3 - s))
        ⟨false, 1, 1, false⟩ s (3 - s) 1 1 1 1 = 1 :=
  ⟨by norm_num,
   C2_bdpt_mis_partition_of_unity 3 (by norm_num) (fun _ => 1) (fun _ => 1)
     (fun m _ => by norm_num) (fun m _ => by norm_num)⟩

end BDPT

namespace BSSRDF
open RG Sampling

/-- C7: `pdf_sp` equals the sum over the three projection axes (with
probabilities 1/4, 1/4, 1/2 for the `ss`, `ts`, `ns` axes) and the three
RGB channels (each with probability 1/3) of
`axis_prob * channel_prob * pdf_sr(ch, r_proj[axis]) * |n_local[axis]|`;
and when the tail of `sample_sp` selects one of the `n_found` admissible
intersections (`selected = clamp((u1 * n_found) as usize, 0, n_found - 1)`,
always in bounds), it reports `pdf = pdf_sp(chain[selected]) / n_found`. -/
theorem C7_bssrdf_pdf_sp_and_selection
    (bs : TabulatedBssrdf) (pi : SurfaceProbe)
    (chain : List SurfaceProbe) (u1 pdfIn : ℝ) (piIn : SurfaceProbe)
    (hne : chain.length ≠ 0) :
    pdf_sp bs pi
      = (∑ axis ∈ Finset.range 3, ∑ ch ∈ Finset.range 3,
          ([(1 : ℝ) / 4, 1 / 4, 1 / 2].getD axis 0) * (1 / 3)
            * bs.pdf_sr ch ((rProjList bs pi).getD axis 0)
            * |vecAt (nLocal bs pi) axis|) ∧
    clampN (Int.toNat ⌊u1 * (chain.length : ℝ)⌋) 0 (chain.length - 1) < chain.length ∧
    sample_sp_tail bs chain u1 pdfIn piIn
      = (pdf_sp bs (chain.getD
            (clampN (Int.toNat ⌊u1 * (chain.length : ℝ)⌋) 0 (chain.length - 1))
            probeDefault) / (chain.length : ℝ),
         chain.getD
            (clampN (Int.toNat ⌊u1 * (chain.length : ℝ)⌋) 0 (chain.length - 1))
            probeDefault) := by
  refine ⟨?_, ?_, ?_⟩
  · unfold pdf_sp
    dsimp only
    rw [show List.range 3 = [0, 1, 2] from rfl]
    simp only [List.foldl_cons, List.foldl_nil]
    rw [Finset.sum_range_succ, Finset.sum_range_succ, Finset.sum_range_one,
      Finset.sum_range_succ, Finset.sum_range_succ, Finset.sum_range_one,
      Finset.sum_range_succ, Finset.sum_range_succ, Finset.sum_range_one,
      Finset.sum_range_succ, Finset.sum_range_succ, Finset.sum_range_one]
    ring
  · unfold clampN
    split_ifs <;> omega
  · unfold sample_sp_tail
    rw [if_neg hne]

end BSSRDF

namespace BSSRDF
open RG Sampling

theorem C7_witness :
    ([probeDefault] : List SurfaceProbe).length ≠ 0 ∧
    (pdf_sp c7Bssrdf probeDefault
      = (∑ axis ∈ Finset.range 3, ∑ ch ∈ Finset.range 3,
          ([(1 : ℝ) / 4, 1 / 4, 1 / 2].getD axis 0) * (1 / 3)
            * c7Bssrdf.pdf_sr ch ((rProjList c7Bssrdf probeDefault).getD axis 0)
            * |vecAt (nLocal c7Bssrdf probeDefault) axis|) ∧
    clampN (Int.toNat ⌊(0 : ℝ) * (([probeDefault] : List SurfaceProbe).length : ℝ)⌋) 0
        (([probeDefault] : List SurfaceProbe).length - 1)
      < ([probeDefault] : List SurfaceProbe).length ∧
    sample_sp_tail c7Bssrdf [probeDefault] 0 0 probeDefault
      = (pdf_sp c7Bssrdf (([probeDefault] : List SurfaceProbe).getD
            (clampN (Int.toNat ⌊(0 : ℝ) * (([probeDefault] : List SurfaceProbe).length : ℝ)⌋) 0
              (([probeDefault] : List SurfaceProbe).length - 1))
            probeDefault) / (([probeDefault] : List SurfaceProbe).length : ℝ),
         ([probeDefault] : List SurfaceProbe).getD
            (clampN (Int.toNat ⌊(0 : ℝ) * (([probeDefault] : List SurfaceProbe).length : ℝ)⌋) 0
              (([probeDefault] : List SurfaceProbe).length - 1))
            probeDefault)) :=
  ⟨by simp,
   C7_bssrdf_pdf_sp_and_selection c7Bssrdf probeDefault [probeDefault] 0 0 probeDefault
     (by simp)⟩

end BSSRDF

namespace MLT

theorem ensureReady_no_resize_no_refresh (erfInv : ℝ → ℝ) (s : MLTSampler) (idx : ℕ)
    (hlen : idx < s.x.length)
    (href : ¬ ((s.x.getD idx psDefault).lastModificationIteration
        < s.lastLargeStepIteration)) :
    ∃ w : ℝ, ensureReady erfInv s idx
      = { s with
          x := s.x.set idx ⟨w, s.currentIteration,
            (s.x.getD idx psDefault).value,
            (s.x.getD idx psDefault).lastModificationIteration⟩,
          rngPos := s.rngPos + 1 } := by
  unfold ensureReady PrimarySample.backup
  dsimp only
  rw [if_neg (show ¬ s.x.length ≤ idx by omega)]
  rw [if_neg href, if_neg href]
  by_cases hls : s.largeStep = true
  · exact ⟨s.rngSeq s.rngPos, by rw [if_pos hls]⟩
  · exact ⟨_, by rw [if_neg hls]⟩

end MLT

namespace MLT

/-- C9 (amended): for a sampler whose next stream index `idx` is already
allocated, whose samples were all last modified no later than the current
iteration, and whose sample `idx` is not due a large-step refresh,
`start_iteration` followed by `get_1d` followed by `reject` brings
`current_iteration` back to its original value and brings sample `idx`
back to its original `(value, last_modification_iteration)` pair (with the
backup fields now holding that same pair), leaving all other allocated
samples untouched.  The rng position is NOT restored — the draws consumed
by the rejected iteration stay consumed — which is why the state
observable through `get_1d` is not as if the iteration had never
happened. -/
theorem C9_mlt_reject_restores_to_backup (erfInv : ℝ → ℝ) (s0 : MLTSampler) (idx : ℕ)
    (hidx : idx = s0.streamIndex + s0.streamCount * s0.sampleIndex)
    (hlen : idx < s0.x.length)
    (hlm : ∀ j, j < s0.x.length →
      (s0.x.getD j psDefault).lastModificationIteration < s0.currentIteration + 1)
    (href : ¬ ((s0.x.getD idx psDefault).lastModificationIteration
        < s0.lastLargeStepIteration)) :
    (reject (get1d erfInv (startIteration s0)).2).currentIteration = s0.currentIteration ∧
    (reject (get1d erfInv (startIteration s0)).2).x.getD idx psDefault
      = (s0.x.getD idx psDefault).backup ∧
    ∀ j, j < s0.x.length → j ≠ idx →
      (reject (get1d erfInv (startIteration s0)).2).x.getD j psDefault
        = s0.x.getD j psDefault := by
  obtain ⟨w, hER⟩ := ensureReady_no_resize_no_refresh erfInv
    { s0 with
      currentIteration := s0.currentIteration + 1,
      largeStep := if s0.rngSeq s0.rngPos < s0.largeStepProbability then true else false,
      rngPos := s0.rngPos + 1,
      sampleIndex := s0.sampleIndex + 1 } idx hlen href
  have hstate : (get1d erfInv (startIteration s0)).2
      = ensureReady erfInv
          { s0 with
            currentIteration := s0.currentIteration + 1,
            largeStep := if s0.rngSeq s0.rngPos < s0.largeStepProbability then true else false,
            rngPos := s0.rngPos + 1,
            sampleIndex := s0.sampleIndex + 1 }
          (s0.streamIndex + s0.streamCount * s0.sampleIndex) := rfl
  rw [hstate, ← hidx, hER]
  refine ⟨?_, ?_, ?_⟩
  · show s0.currentIteration + 1 - 1 = s0.currentIteration
    omega
  · show ((s0.x.set idx
        ⟨w, s0.currentIteration + 1, (s0.x.getD idx psDefault).value,
          (s0.x.getD idx psDefault).lastModificationIteration⟩).map
        (fun xi => if xi.lastModificationIteration = s0.currentIteration + 1
          then xi.restore else xi)).getD idx psDefault
      = (s0.x.getD idx psDefault).backup
    rw [List.getD_eq_getElem?_getD, List.getElem?_map,
      List.getElem?_set_self (by simpa using hlen)]
    simp only [Option.map_some', Option.getD_some]
    rw [if_true]
    unfold PrimarySample.restore PrimarySample.backup
    rfl
  · intro j hj hne
    show ((s0.x.set idx
        ⟨w, s0.currentIteration + 1, (s0.x.getD idx psDefault).value,
          (s0.x.getD idx psDefault).lastModificationIteration⟩).map
        (fun xi => if xi.lastModificationIteration = s0.currentIteration + 1
          then xi.restore else xi)).getD j psDefault
      = s0.x.getD j psDefault
    have hjlt := hlm j hj
    have hx : s0.x.getD j psDefault = s0.x[j] := by
      rw [List.getD_eq_getElem?_getD, List.getElem?_eq_getElem hj]
      rfl
    rw [hx] at hjlt
    rw [hx]
    rw [List.getD_eq_getElem?_getD, List.getElem?_map,
      List.getElem?_set_ne (Ne.symm hne), List.getElem?_eq_getElem hj]
    show (if (s0.x[j]).lastModificationIteration = s0.currentIteration + 1
      then (s0.x[j]).restore else s0.x[j]) = s0.x[j]
    rw [if_neg (ne_of_lt hjlt)]

end MLT

namespace MLT

theorem C9_reject_not_transparent :
    (get1d (fun _ => 0)
        (startStream (startIteration (reject
          (get1d (fun _ => 0) (startStream (startIteration c9S0) 0)).2)) 0)).1 = 5 / 8 ∧
    (get1d (fun _ => 0) (startStream (startIteration c9S0) 0)).1 = 1 / 4 ∧
    (5 / 8 : ℝ) ≠ 1 / 4 := by
  have h1 : startStream (startIteration c9S0) 0
      = (⟨1, 1, [], 1, true, 0, 1, 0, 0, c9Seq, 1⟩ : MLTSampler) := by
    unfold startIteration startStream c9S0
    rw [if_pos (show c9Seq 0 < 1 by rw [show c9Seq 0 = 0 from rfl]; norm_num)]
    rfl
  have h2s : (get1d (fun _ => (0 : ℝ))
      (⟨1, 1, [], 1, true, 0, 1, 0, 0, c9Seq, 1⟩ : MLTSampler)).2
      = ⟨1, 1, [⟨1 / 4, 1, 0, 0⟩], 1, true, 0, 1, 0, 1, c9Seq, 2⟩ := rfl
  have h2v : (get1d (fun _ => (0 : ℝ))
      (⟨1, 1, [], 1, true, 0, 1, 0, 0, c9Seq, 1⟩ : MLTSampler)).1 = 1 / 4 := rfl
  have h3 : reject (⟨1, 1, [⟨1 / 4, 1, 0, 0⟩], 1, true, 0, 1, 0, 1, c9Seq, 2⟩ : MLTSampler)
      = ⟨1, 1, [⟨0, 0, 0, 0⟩], 0, true, 0, 1, 0, 1, c9Seq, 2⟩ := rfl
  have h4 : startIteration (⟨1, 1, [⟨0, 0, 0, 0⟩], 0, true, 0, 1, 0, 1, c9Seq, 2⟩ : MLTSampler)
      = ⟨1, 1, [⟨0, 0, 0, 0⟩], 1, true, 0, 1, 0, 1, c9Seq, 3⟩ := by
    unfold startIteration
    rw [if_pos (show c9Seq 2 < 1 by rw [show c9Seq 2 = 3 / 4 from rfl]; norm_num)]
    rfl
  have h5 : (get1d (fun _ => (0 : ℝ))
      (startStream (⟨1, 1, [⟨0, 0, 0, 0⟩], 1, true, 0, 1, 0, 1, c9Seq, 3⟩ : MLTSampler) 0)).1
      = 5 / 8 := rfl
  refine ⟨?_, ?_, by norm_num⟩
  · rw [h1, h2s, h3, h4]
    exact h5
  · rw [h1]
    exact h2v

end MLT

namespace MLT

theorem C9_witness :
    (0 : ℕ) = c9W0.streamIndex + c9W0.streamCount * c9W0.sampleIndex ∧
    ((reject (get1d (fun _ => 0) (startIteration c9W0)).2).currentIteration
        = c9W0.currentIteration ∧
      (reject (get1d (fun _ => 0) (startIteration c9W0)).2).x.getD 0 psDefault
        = (c9W0.x.getD 0 psDefault).backup ∧
      ∀ j, j < c9W0.x.length → j ≠ 0 →
        (reject (get1d (fun _ => 0) (startIteration c9W0)).2).x.getD j psDefault
          = c9W0.x.getD j psDefault) :=
  ⟨rfl,
   C9_mlt_reject_restores_to_backup (fun _ => 0) c9W0 0 rfl (by decide)
     (by
       intro j hj
       have hl : c9W0.x.length = 1 := rfl
       rw [hl] at hj
       have hj0 : j = 0 := by omega
       subst hj0
       decide)
     (by decide)⟩

end MLT
